import Mathlib

/-!
# The structural layer of the EXR decoder (`src/exr.go`)

A shallow embedding of `Decode` and `parseAttribute` and the properties of
the preamble check, the image-type classification, the attribute parser and
the offset reader.

Conventions of the embedding.

* The opened file behind `bufio.NewReader(f)` is a `Reader`: the bytes not yet
  delivered and the environment's choices for the successive `Read` calls.
  `bufio.Reader.Read` is documented to take its bytes "from at most one Read
  on the underlying Reader, hence n may be less than len(p)"; a call on a
  non-exhausted stream therefore delivers between one byte and the requested
  number, and the `sched` component fixes which.  `sched = []` is the
  environment in which every call is satisfied as fully as the stream allows.
* `int` is 64 bits wide (amd64, arm64): `int(x)` of a `uint32` keeps the
  value of `x`.
* `fmt.Println` output is not part of the state.  `os.Exit(1)`, a run-time
  panic and an ordinary `return nil, err` are three different results.
* `Decode` returns `nil, nil` on success; the embedding returns the values
  of its local variables at that point, so that they can be spoken about.
* `os.Open` is outside the embedding: `Decode` starts from the opened stream.
* Memory is not bounded: `make` fails only for a negative capacity.
-/

namespace Exr

/-- One byte of the stream. -/
abbrev Byte := UInt8

/-- The values of Go's `error` that the two functions can produce: `io.EOF`
from a read on an exhausted stream, `errors.New("attribute name too long.")`
and `fmt.Errorf("wrong magic number: %v, need %v", magic, MagicNumber)`. -/
inductive GoError where
  | EOF
  | nameTooLong
  | wrongMagic (magic : Int) (need : Int)
deriving DecidableEq, Repr

/-- The run-time panics reachable in the two functions: a slice expression
whose bounds are out of range, and `make` with a negative capacity. -/
inductive PanicKind where
  | sliceBounds
  | makeNegativeCap
deriving DecidableEq, Repr

/-- The places where `Decode` calls `os.Exit(1)`. -/
inductive ExitReason where
  | magicRead (err : GoError)
  | versionRead (err : GoError)
  | header (err : GoError)
  | noDataWindow
  | offsetRead (err : GoError)
deriving DecidableEq, Repr

/-- The stream behind the `*bufio.Reader`: `data` are the bytes not yet
delivered, in order; `sched` holds, for each coming call of `Read`, a bound
`c` chosen by the environment: that call delivers at most `c + 1` bytes. -/
structure Reader where
  data : List Byte
  sched : List Nat
deriving DecidableEq, Repr

/-- How a piece of code ends: normally with a value, by returning a Go error,
by `os.Exit(1)`, or by a run-time panic; `timeout` is the embedding's own
result for a loop that has used up its fuel. Each result carries the stream
as it stands at that point. -/
inductive Result (α : Type) where
  | ret (a : α) (rd : Reader)
  | fail (err : GoError) (rd : Reader)
  | exit (why : ExitReason) (rd : Reader)
  | panic (why : PanicKind) (rd : Reader)
  | timeout
deriving DecidableEq, Repr

/-- The number of bytes a call `r.Read(p)` with `len(p) = k` delivers on a
stream that is not exhausted. -/
def Reader.readCount (rd : Reader) (k : Nat) : Nat :=
  match rd.sched with
  | [] => min k rd.data.length
  | c :: _ => min (min k rd.data.length) (c + 1)

/-- The call `n, err := r.Read(p)` with `len(p) = k`: the `n` bytes stored at
the front of `p`, the error, and the stream afterwards. On an exhausted stream
it is `0, io.EOF`; otherwise `1 ≤ n ≤ k` and the error is nil. -/
def Reader.Read (rd : Reader) (k : Nat) : List Byte × Option GoError × Reader :=
  if k = 0 then ([], none, rd)
  else
    match rd.data with
    | [] => ([], some GoError.EOF, ⟨[], rd.sched.tail⟩)
    | _ :: _ => (rd.data.take (rd.readCount k), none, ⟨rd.data.drop (rd.readCount k), rd.sched.tail⟩)

/-- The line up to and including the first `delim`, and what follows it. -/
def splitAtDelim (delim : Byte) : List Byte → Option (List Byte × List Byte)
  | [] => none
  | b :: bs =>
    if b = delim then some ([b], bs)
    else
      match splitAtDelim delim bs with
      | none => none
      | some (line, rest) => some (b :: line, rest)

/-- The call `r.ReadBytes(delim)`: the bytes up to and including the first
`delim`; when the stream ends before a `delim`, the bytes read so far together
with `io.EOF`. -/
def Reader.ReadBytes (rd : Reader) (delim : Byte) : List Byte × Option GoError × Reader :=
  match splitAtDelim delim rd.data with
  | some (line, rest) => (line, none, ⟨rest, rd.sched⟩)
  | none => (rd.data, some GoError.EOF, ⟨[], rd.sched⟩)

/-- The buffer `p := make([]byte, k)` after a `Read` stored `got` at its front:
the bytes that were not overwritten are still zero. -/
def fillBuf (k : Nat) (got : List Byte) : List Byte :=
  got ++ List.replicate (k - got.length) 0

/-- The little-endian value of a byte sequence. -/
def leValue : List Byte → Nat
  | [] => 0
  | b :: bs => b.toNat + 256 * leValue bs

/-- `binary.LittleEndian.Uint32(b)`. -/
def Uint32 (b : List Byte) : Nat := leValue (b.take 4)

/-- `binary.LittleEndian.Uint64(b)`. -/
def Uint64 (b : List Byte) : Nat := leValue (b.take 8)

/-- The conversion of an unsigned value to a signed integer type of `w` bits
(two's complement). -/
def toSigned (w : Nat) (u : Nat) : Int :=
  if u % 2 ^ w < 2 ^ (w - 1) then ((u % 2 ^ w : Nat) : Int) else ((u % 2 ^ w : Nat) : Int) - 2 ^ w

/-- The width of `int`. -/
def intSize : Nat := 64

/-- The conversion `int(x)`. -/
def goInt (u : Nat) : Int := toSigned intSize u

/-- The conversion `int64(x)`. -/
def goInt64 (u : Nat) : Int := toSigned 64 u

/-- `var MagicNumber = 20000630`. -/
def MagicNumber : Int := 20000630

/-- `bufio.MaxScanTokenSize`. -/
def MaxScanTokenSize : Int := 64 * 1024

/-- The struct type `attribute` of the source (the word is reserved here); a Go
`string` is its sequence of bytes. -/
structure Attribute where
  name : List Byte
  typ : List Byte
  size : Int
  value : List Byte
deriving DecidableEq, Repr

/-- The loop `for remain > 0 { ... }` of `parseAttribute`. -/
def readValue : Nat → Int → List Byte → Reader → Result (List Byte)
  | 0, remain, valueByte, rd => if remain > 0 then Result.timeout else Result.ret valueByte rd
  | fuel + 1, remain, valueByte, rd =>
    if remain > 0 then
      let s := if remain > MaxScanTokenSize then MaxScanTokenSize else remain
      match rd.Read s.toNat with
      | (_, some err, rd1) => Result.fail err rd1
      | (b, none, rd1) => readValue fuel (remain - (b.length : Int)) (valueByte ++ b) rd1
    else Result.ret valueByte rd

/-- `func parseAttribute`: `ret (some attr)` is `(&attr, nil)`, `ret none` is
`(nil, nil)`, `fail err` is `(nil, err)`. -/
def parseAttribute (rd : Reader) : Result (Option Attribute) :=
  match rd.ReadBytes 0 with
  | (_, some err, rd1) => Result.fail err rd1
  | (nameByte, none, rd1) =>
    let nameByte := nameByte.dropLast
    if nameByte.length = 0 then Result.ret none rd1
    else if nameByte.length > 255 then Result.fail GoError.nameTooLong rd1
    else
      let name := nameByte
      match rd1.ReadBytes 0 with
      | (typeByte, err, rd2) =>
        -- `typeByte[:len(typeByte)-1]` comes before the test of `err`
        if typeByte.length = 0 then Result.panic PanicKind.sliceBounds rd2
        else
          let typeByte := typeByte.dropLast
          match err with
          | some e => Result.fail e rd2
          | none =>
            let typ := typeByte
            match rd2.Read 4 with
            | (_, some e, rd3) => Result.fail e rd3
            | (got, none, rd3) =>
              let sizeByte := fillBuf 4 got
              let size := goInt (Uint32 sizeByte)
              if size < 0 then Result.panic PanicKind.makeNegativeCap rd3
              else
                match readValue size.toNat size [] rd3 with
                | Result.ret valueByte rd4 => Result.ret (some ⟨name, typ, size, valueByte⟩) rd4
                | Result.fail e rd4 => Result.fail e rd4
                | Result.exit w rd4 => Result.exit w rd4
                | Result.panic w rd4 => Result.panic w rd4
                | Result.timeout => Result.timeout

/-- The five image-type flags of `Decode`. -/
structure ImageType where
  singlePartScanLine : Bool
  singlePartTiled : Bool
  singlePartDeep : Bool
  multiPart : Bool
  multiPartDeep : Bool
deriving DecidableEq, Repr

/-- The block `// Parse image type` of `Decode`. -/
def imageType (versionInt : Int) : ImageType :=
  let singlePartTiled := decide (Int.land versionInt 0x200 ≠ 0)
  if !singlePartTiled then
    let deep := decide (Int.land versionInt 0x800 ≠ 0)
    let multi := decide (Int.land versionInt 0x1000 ≠ 0)
    if multi && !deep then ⟨false, singlePartTiled, false, true, false⟩
    else if multi && deep then ⟨false, singlePartTiled, false, false, true⟩
    else if !multi && deep then ⟨false, singlePartTiled, true, false, false⟩
    else ⟨true, singlePartTiled, false, false, false⟩
  else ⟨false, singlePartTiled, false, false, false⟩

/-- The block `// Check image could have long attribute name` of `Decode`. -/
def longAttrName (versionInt : Int) : Bool :=
  decide (Int.land versionInt 0x400 ≠ 0)

/-- The map `attrs`: at most one entry for each name. -/
abbrev AttrMap := List Attribute

/-- The assignment `attrs[attr.name] = attr`. -/
def AttrMap.insert (attrs : AttrMap) (attr : Attribute) : AttrMap :=
  attr :: attrs.filter (fun a => a.name != attr.name)

/-- The lookup `attrs[name]`. -/
def AttrMap.lookup (attrs : AttrMap) (name : List Byte) : Option Attribute :=
  attrs.find? (fun a => a.name == name)

/-- The loop `for { pAttr, err := parseAttribute(r, parse) ... }` of `Decode`. -/
def headerLoop : Nat → AttrMap → Reader → Result AttrMap
  | 0, _, _ => Result.timeout
  | fuel + 1, attrs, rd =>
    match parseAttribute rd with
    | Result.fail err rd1 => Result.exit (ExitReason.header err) rd1
    | Result.ret none rd1 => Result.ret attrs rd1
    | Result.ret (some attr) rd1 => headerLoop fuel (attrs.insert attr) rd1
    | Result.exit w rd1 => Result.exit w rd1
    | Result.panic w rd1 => Result.panic w rd1
    | Result.timeout => Result.timeout

/-- The header loop with fuel for more iterations than the stream has bytes. -/
def parseHeader (rd : Reader) : Result AttrMap :=
  headerLoop (rd.data.length + 1) [] rd

/-- A slice expression `v[lo:hi]`; the values sliced in `Decode` have their
capacity equal to their length. -/
def slice (v : List Byte) (lo hi : Nat) : Option (List Byte) :=
  if lo ≤ hi ∧ hi ≤ v.length then some ((v.take hi).drop lo) else none

/-- The loop `for i := 0; i < lineCount; i++ { ... }` of `Decode`, by the
number of iterations still to run. -/
def offsetLoop : Nat → List Int → Reader → Result (List Int)
  | 0, offsets, rd => Result.ret offsets rd
  | n + 1, offsets, rd =>
    match rd.Read 8 with
    | (_, some err, rd1) => Result.exit (ExitReason.offsetRead err) rd1
    | (got, none, rd1) =>
      let offsetByte := fillBuf 8 got
      let offset := goInt64 (Uint64 offsetByte)
      offsetLoop n (offsets ++ [offset]) rd1

/-- The local variables of `Decode` when it reaches `return nil, nil`. -/
structure Decoded where
  version : Int
  imageType : ImageType
  longAttrName : Bool
  attrs : AttrMap
  xMin : Int
  yMin : Int
  xMax : Int
  yMax : Int
  offsets : List Int
deriving DecidableEq, Repr

/-- The name `"dataWindow"` as bytes. -/
def dataWindowName : List Byte := [100, 97, 116, 97, 87, 105, 110, 100, 111, 119]

/-- The part of `Decode` from `// Check image (x, y) size.` to the end. -/
def decodeBody (version : Int) (ty : ImageType) (long : Bool) (attrs : AttrMap) (rd : Reader) :
    Result Decoded :=
  match attrs.lookup dataWindowName with
  | none => Result.exit ExitReason.noDataWindow rd
  | some dataWindow =>
    match slice dataWindow.value 0 4, slice dataWindow.value 4 8,
        slice dataWindow.value 8 12, slice dataWindow.value 12 16 with
    | some b0, some b1, some b2, some b3 =>
      let xMin := goInt (Uint32 b0)
      let yMin := goInt (Uint32 b1)
      let xMax := goInt (Uint32 b2)
      let yMax := goInt (Uint32 b3)
      let lineCount := yMax - yMin + 1
      if lineCount < 0 then Result.panic PanicKind.makeNegativeCap rd
      else
        match offsetLoop lineCount.toNat [] rd with
        | Result.ret offsets rd1 =>
          Result.ret ⟨version, ty, long, attrs, xMin, yMin, xMax, yMax, offsets⟩ rd1
        | Result.fail err rd1 => Result.fail err rd1
        | Result.exit w rd1 => Result.exit w rd1
        | Result.panic w rd1 => Result.panic w rd1
        | Result.timeout => Result.timeout
    | _, _, _, _ => Result.panic PanicKind.sliceBounds rd

/-- `func Decode`, from `r := bufio.NewReader(f)` on. -/
def Decode (rd : Reader) : Result Decoded :=
  match rd.Read 4 with
  | (_, some err, rd1) => Result.exit (ExitReason.magicRead err) rd1
  | (got, none, rd1) =>
    let magicByte := fillBuf 4 got
    let magic := goInt (Uint32 magicByte)
    if magic ≠ MagicNumber then Result.fail (GoError.wrongMagic magic MagicNumber) rd1
    else
      match rd1.Read 4 with
      | (_, some err, rd2) => Result.exit (ExitReason.versionRead err) rd2
      | (got, none, rd2) =>
        let versionByte := fillBuf 4 got
        let version : Int := ((versionByte.getD 0 0).toNat : Int)
        let versionInt := goInt (Uint32 versionByte)
        match parseHeader rd2 with
        | Result.ret attrs rd3 =>
          decodeBody version (imageType versionInt) (longAttrName versionInt) attrs rd3
        | Result.fail err rd3 => Result.fail err rd3
        | Result.exit w rd3 => Result.exit w rd3
        | Result.panic w rd3 => Result.panic w rd3
        | Result.timeout => Result.timeout

/-- The image types of the format, by the names the specification gives them. -/
inductive Topology where
  | ScanlineSinglePart
  | TiledSinglePart
  | DeepSinglePart
  | MultiPart
  | MultiPartDeep
deriving DecidableEq, Repr

/-- The flags of `Decode` in which a given image type is the one that is set. -/
def Topology.flags : Topology → ImageType
  | Topology.ScanlineSinglePart => ⟨true, false, false, false, false⟩
  | Topology.TiledSinglePart => ⟨false, true, false, false, false⟩
  | Topology.DeepSinglePart => ⟨false, false, true, false, false⟩
  | Topology.MultiPart => ⟨false, false, false, true, false⟩
  | Topology.MultiPartDeep => ⟨false, false, false, false, true⟩

/-- The truth table of the specification, written from its words: the tiled
bit decides alone; otherwise the multi-part and deep bits decide together. -/
def specTopology (tiled deep multi : Bool) : Topology :=
  if tiled then Topology.TiledSinglePart
  else if multi && !deep then Topology.MultiPart
  else if multi && deep then Topology.MultiPartDeep
  else if !multi && deep then Topology.DeepSinglePart
  else Topology.ScanlineSinglePart

/-- The flags of an image type in the order of their declaration. -/
def ImageType.toList (t : ImageType) : List Bool :=
  [t.singlePartScanLine, t.singlePartTiled, t.singlePartDeep, t.multiPart, t.multiPartDeep]

/-- What `parseAttribute` decodes as `size` when the stream stands at the
length field: the four-byte buffer after one `Read`, read as a little-endian
unsigned number. -/
def lengthField (rd : Reader) : Nat := Uint32 (fillBuf 4 (rd.Read 4).1)

/-- The stream after the `Read` of the length field. -/
def afterLength (rd : Reader) : Reader := (rd.Read 4).2.2

/-- `binary.LittleEndian.PutUint32`: the four bytes that encode `x`. -/
def putUint32 (x : Nat) : List Byte :=
  [UInt8.ofNat (x % 256), UInt8.ofNat (x / 256 % 256), UInt8.ofNat (x / 65536 % 256),
    UInt8.ofNat (x / 16777216 % 256)]

/-- The wire form of one attribute record, from the specification's words: the
name, 0x00, the type tag, 0x00, the length of the value as four little-endian
bytes, the value. -/
def encodeAttribute (name typ value : List Byte) : List Byte :=
  name ++ 0 :: (typ ++ 0 :: (putUint32 value.length ++ value))

/-- The wire form of a header: its records one after the other, then the
empty name. -/
def encodeHeader : List (List Byte × List Byte × List Byte) → List Byte
  | [] => [0]
  | (name, typ, value) :: records => encodeAttribute name typ value ++ encodeHeader records

/-- The driver of the round trip: `parseAttribute` called again and again
until it reports the end of the header (`nil, nil`), the records kept in the
order in which they were returned. -/
def parseRecords : Nat → Reader → Result (List Attribute)
  | 0, _ => Result.timeout
  | fuel + 1, rd =>
    match parseAttribute rd with
    | Result.ret none rd1 => Result.ret [] rd1
    | Result.ret (some attr) rd1 =>
      match parseRecords fuel rd1 with
      | Result.ret attrs rd2 => Result.ret (attr :: attrs) rd2
      | other => other
    | Result.fail err rd1 => Result.fail err rd1
    | Result.exit w rd1 => Result.exit w rd1
    | Result.panic w rd1 => Result.panic w rd1
    | Result.timeout => Result.timeout

/-- The type tag `"box2i"` as bytes. -/
def box2iName : List Byte := [98, 111, 120, 50, 105]

/-- A file with the magic number, the version word `version`, the single
attribute `dataWindow` of type `box2i` with the value `window`, the end of the
header, and then `offsets`. -/
def exrStream (version window offsets : List Byte) : List Byte :=
  [0x76, 0x2F, 0x31, 0x01] ++ version ++ encodeHeader [(dataWindowName, box2iName, window)]
    ++ offsets

/-- The records that the round trip is about: the name is not empty, has at
most 255 bytes and no 0x00, the type tag has no 0x00, and the value is shorter
than 2^32 bytes. -/
def wellFormedRecord (r : List Byte × List Byte × List Byte) : Prop :=
  r.1 ≠ [] ∧ r.1.length ≤ 255 ∧ (0 : Byte) ∉ r.1 ∧ (0 : Byte) ∉ r.2.1 ∧ r.2.2.length < 2 ^ 32

/-- The attribute that a record stands for: its size is the length of its
value. -/
def recordAttribute (r : List Byte × List Byte × List Byte) : Attribute :=
  ⟨r.1, r.2.1, (r.2.2.length : Int), r.2.2⟩

/-- One successful iteration of the value loop of `parseAttribute`: `remain`
at the loop test, the length `s` of the buffer `b`, the count `n` that `Read`
returned, and `remain` after `remain -= n`. -/
structure Iteration where
  remain : Int
  request : Int
  got : Nat
  remainAfter : Int
deriving DecidableEq, Repr

/-- The successful iterations of the loop `for remain > 0 { ... }`, in order:
the recursion is that of `readValue`, which it follows step by step. -/
def readValueTrace : Nat → Int → Reader → List Iteration
  | 0, _, _ => []
  | fuel + 1, remain, rd =>
    if remain > 0 then
      let s := if remain > MaxScanTokenSize then MaxScanTokenSize else remain
      match rd.Read s.toNat with
      | (_, some _, _) => []
      | (b, none, rd1) =>
        ⟨remain, s, b.length, remain - (b.length : Int)⟩
          :: readValueTrace fuel (remain - (b.length : Int)) rd1
    else []

/-- The method `Error()` of the errors that the two functions produce. -/
def GoError.Error : GoError → String
  | GoError.EOF => "EOF"
  | GoError.nameTooLong => "attribute name too long."
  | GoError.wrongMagic magic need => s!"wrong magic number: {magic}, need {need}"

/-- `binary.LittleEndian.PutUint64`: the eight bytes that encode `x`. -/
def putUint64 (x : Nat) : List Byte :=
  [UInt8.ofNat (x % 256), UInt8.ofNat (x / 256 % 256), UInt8.ofNat (x / 65536 % 256),
    UInt8.ofNat (x / 16777216 % 256), UInt8.ofNat (x / 4294967296 % 256),
    UInt8.ofNat (x / 1099511627776 % 256), UInt8.ofNat (x / 281474976710656 % 256),
    UInt8.ofNat (x / 72057594037927936 % 256)]

/-- The four little-endian bytes of a signed 32-bit integer (two's
complement). -/
def putInt32 (x : Int) : List Byte := putUint32 (x % 2 ^ 32).toNat

/-- The eight little-endian bytes of a signed 64-bit integer (two's
complement). -/
def putInt64 (x : Int) : List Byte := putUint64 (x % 2 ^ 64).toNat

/-- The sixteen bytes of a `box2i` value: `xMin`, `yMin`, `xMax`, `yMax`. -/
def encodeBox2i (xMin yMin xMax yMax : Int) : List Byte :=
  putInt32 xMin ++ (putInt32 yMin ++ (putInt32 xMax ++ putInt32 yMax))

/-- The wire form of an offset table: each offset as eight little-endian
bytes. -/
def encodeOffsets : List Int → List Byte
  | [] => []
  | o :: os => putInt64 o ++ encodeOffsets os

/-! ## Integer conversions and bit tests -/

theorem goInt_of_lt {u : Nat} (h : u < 2 ^ 63) : goInt u = (u : Int) := by
  have h1 : u % 2 ^ 64 = u := Nat.mod_eq_of_lt (by omega)
  simp only [goInt, toSigned, intSize, h1]
  rw [if_pos (by simpa using h)]

theorem land_two_pow_ne_zero (v i : Nat) :
    decide (Int.land (v : Int) ((2 ^ i : Nat) : Int) ≠ 0) = v.testBit i := by
  have h : Int.land (v : Int) ((2 ^ i : Nat) : Int) = ((v &&& 2 ^ i : Nat) : Int) := rfl
  rw [h, Nat.and_two_pow]
  cases hb : v.testBit i <;> simp

theorem imageType_natCast (v : Nat) :
    imageType (v : Int) = (specTopology (v.testBit 9) (v.testBit 11) (v.testBit 12)).flags := by
  have h9 : decide (Int.land (v : Int) 0x200 ≠ 0) = v.testBit 9 := by
    simpa using land_two_pow_ne_zero v 9
  have h11 : decide (Int.land (v : Int) 0x800 ≠ 0) = v.testBit 11 := by
    simpa using land_two_pow_ne_zero v 11
  have h12 : decide (Int.land (v : Int) 0x1000 ≠ 0) = v.testBit 12 := by
    simpa using land_two_pow_ne_zero v 12
  unfold imageType
  simp only [h9, h11, h12]
  cases v.testBit 9 <;> cases v.testBit 11 <;> cases v.testBit 12 <;> rfl

/-! ## The image type (C1, C2) -/

/-- C1. For every 32-bit version word the flags that `Decode` computes are
those of the truth table: bit 0x200 (bit 9) set gives the tiled type whatever
bits 0x800 (bit 11) and 0x1000 (bit 12) are; otherwise multi and not deep is
multi-part, multi and deep is multi-part deep, deep alone is single-part deep,
and neither is single-part scan line. -/
theorem imageType_truth_table (v : Nat) (hv : v < 2 ^ 32) :
    imageType (goInt v) = (specTopology (v.testBit 9) (v.testBit 11) (v.testBit 12)).flags
    ∧ (v.testBit 9 = true → imageType (goInt v) = Topology.TiledSinglePart.flags)
    ∧ (v.testBit 9 = false → v.testBit 12 = true → v.testBit 11 = false →
        imageType (goInt v) = Topology.MultiPart.flags)
    ∧ (v.testBit 9 = false → v.testBit 12 = true → v.testBit 11 = true →
        imageType (goInt v) = Topology.MultiPartDeep.flags)
    ∧ (v.testBit 9 = false → v.testBit 12 = false → v.testBit 11 = true →
        imageType (goInt v) = Topology.DeepSinglePart.flags)
    ∧ (v.testBit 9 = false → v.testBit 12 = false → v.testBit 11 = false →
        imageType (goInt v) = Topology.ScanlineSinglePart.flags) := by
  rw [goInt_of_lt (by omega), imageType_natCast]
  refine ⟨rfl, ?_, ?_, ?_, ?_, ?_⟩
  · intro h9
    simp [specTopology, h9]
  · intro h9 h12 h11
    simp [specTopology, h9, h11, h12]
  · intro h9 h12 h11
    simp [specTopology, h9, h11, h12]
  · intro h9 h12 h11
    simp [specTopology, h9, h11, h12]
  · intro h9 h12 h11
    simp [specTopology, h9, h11, h12]

/-- The version word 0x1800 (multi-part and deep) is classified as the truth
table says. -/
theorem imageType_truth_table_witness :
    imageType (goInt 0x1800) = Topology.MultiPartDeep.flags :=
  ((imageType_truth_table 0x1800 (by decide)).2.2.2.1 (by decide) (by decide) (by decide))

/-- C2. For every 32-bit version word exactly one of the five flags
`singlePartScanLine`, `singlePartTiled`, `singlePartDeep`, `multiPart`,
`multiPartDeep` that `Decode` computes is true. -/
theorem imageType_exactly_one (v : Nat) (hv : v < 2 ^ 32) :
    ((imageType (goInt v)).toList.filter (fun b => b)).length = 1 := by
  rw [goInt_of_lt (by omega), imageType_natCast]
  cases v.testBit 9 <;> cases v.testBit 11 <;> cases v.testBit 12 <;> rfl

/-- The version word 0x200 sets exactly one flag. -/
theorem imageType_exactly_one_witness :
    ((imageType (goInt 0x200)).toList.filter (fun b => b)).length = 1 :=
  imageType_exactly_one 0x200 (by decide)

/-! ## The stream primitives -/

theorem splitAtDelim_append (d : Byte) (pre rest : List Byte) (h : d ∉ pre) :
    splitAtDelim d (pre ++ d :: rest) = some (pre ++ [d], rest) := by
  induction pre with
  | nil => simp [splitAtDelim]
  | cons b bs ih =>
    have hb : b ≠ d := fun e => h (by simp [e])
    have hbs : d ∉ bs := fun e => h (by simp [e])
    simp [splitAtDelim, hb, ih hbs]

theorem ReadBytes_append (d : Byte) (pre rest : List Byte) (s : List Nat) (h : d ∉ pre) :
    Reader.ReadBytes ⟨pre ++ d :: rest, s⟩ d = (pre ++ [d], none, ⟨rest, s⟩) := by
  simp [Reader.ReadBytes, splitAtDelim_append d pre rest h]

theorem readCount_pos (rd : Reader) (k : Nat) (hk : 0 < k) (hd : rd.data ≠ []) :
    0 < rd.readCount k := by
  have : 0 < rd.data.length := List.length_pos.mpr hd
  unfold Reader.readCount
  split <;> omega

theorem readCount_le (rd : Reader) (k : Nat) :
    rd.readCount k ≤ k ∧ rd.readCount k ≤ rd.data.length := by
  unfold Reader.readCount
  split <;> omega

theorem Read_of_ne_nil (rd : Reader) (k : Nat) (hk : 0 < k) (hd : rd.data ≠ []) :
    rd.Read k
      = (rd.data.take (rd.readCount k), none, ⟨rd.data.drop (rd.readCount k), rd.sched.tail⟩) := by
  unfold Reader.Read
  rw [if_neg (by omega)]
  cases hdat : rd.data with
  | nil => exact absurd hdat hd
  | cons b bs => rfl

theorem leValue_lt (l : List Byte) : leValue l < 256 ^ l.length := by
  induction l with
  | nil => simp [leValue]
  | cons b bs ih =>
    have hb : b.toNat < 256 := by simpa using UInt8.toNat_lt b
    simp only [leValue, List.length_cons, pow_succ]
    omega

theorem Uint32_lt (b : List Byte) : Uint32 b < 2 ^ 32 := by
  have h := leValue_lt (b.take 4)
  have h4 : (b.take 4).length ≤ 4 := by simp [List.length_take]
  have : 256 ^ (b.take 4).length ≤ 256 ^ 4 := Nat.pow_le_pow_right (by norm_num) h4
  unfold Uint32
  calc leValue (b.take 4) < 256 ^ (b.take 4).length := h
    _ ≤ 256 ^ 4 := this
    _ = 2 ^ 32 := by norm_num

theorem goInt_Uint32 (b : List Byte) : goInt (Uint32 b) = (Uint32 b : Int) :=
  goInt_of_lt (by have := Uint32_lt b; omega)

/-! ## The value loop of `parseAttribute` -/

/-- The loop delivers the next `remain` bytes of the stream, in order, whatever
the sizes of the single reads are. -/
theorem readValue_exact (fuel : Nat) : ∀ (remain : Nat) (acc : List Byte) (rd : Reader),
    remain ≤ fuel → remain ≤ rd.data.length →
    ∃ j, readValue fuel (remain : Int) acc rd
      = Result.ret (acc ++ rd.data.take remain) ⟨rd.data.drop remain, rd.sched.drop j⟩ := by
  induction fuel with
  | zero =>
    intro remain acc rd h1 _
    have : remain = 0 := by omega
    subst this
    exact ⟨0, by simp [readValue]⟩
  | succ fuel ih =>
    intro remain acc rd h1 h2
    by_cases hr : remain = 0
    · subst hr
      exact ⟨0, by simp [readValue]⟩
    · have hpos : (remain : Int) > 0 := by omega
      have hd : rd.data ≠ [] := by
        intro e
        rw [e] at h2
        simp at h2
        exact hr h2
      obtain ⟨k, hk⟩ : ∃ k : Nat,
          (if (remain : Int) > MaxScanTokenSize then MaxScanTokenSize else (remain : Int))
            = (k : Int) ∧ 0 < k ∧ k ≤ remain := by
        by_cases hm : (remain : Int) > MaxScanTokenSize
        · refine ⟨65536, ?_, by omega, ?_⟩
          · rw [if_pos hm]; simp [MaxScanTokenSize]
          · simp [MaxScanTokenSize] at hm; omega
        · exact ⟨remain, by rw [if_neg hm], by omega, le_refl _⟩
      obtain ⟨hkeq, hk0, hkr⟩ := hk
      have hn0 := readCount_pos rd k hk0 hd
      have hnle := readCount_le rd k
      set n := rd.readCount k with hn
      have hlen : (rd.data.take n).length = n := by
        rw [List.length_take]; omega
      obtain ⟨j, hs⟩ := ih (remain - n) (acc ++ rd.data.take n) ⟨rd.data.drop n, rd.sched.tail⟩
        (by omega) (by simp [List.length_drop]; omega)
      refine ⟨j + 1, ?_⟩
      unfold readValue
      rw [if_pos hpos]
      simp only [hkeq, Int.toNat_ofNat]
      rw [Read_of_ne_nil rd k hk0 hd]
      simp only [← hn, hlen]
      have hc : ((remain : Int) - (n : Int)) = ((remain - n : Nat) : Int) := by omega
      rw [hc, hs]
      have e1 : rd.data.take n ++ (rd.data.drop n).take (remain - n) = rd.data.take remain := by
        have := List.take_add rd.data n (remain - n)
        rw [show n + (remain - n) = remain by omega] at this
        exact this.symm
      simp [List.append_assoc, e1, List.drop_drop]
      congr 1
      omega

/-- The empty name: `parseAttribute` consumes the 0x00 and reports the end of
the header. -/
theorem parseAttribute_end_of_header_aux (rest : List Byte) (s : List Nat) :
    parseAttribute ⟨0 :: rest, s⟩ = Result.ret none ⟨rest, s⟩ := by
  simp [parseAttribute, Reader.ReadBytes, splitAtDelim]

/-! ## One attribute record -/

/-- On a stream that holds a name, a type tag and at least one more byte, with
enough bytes after the length field for the decoded length, `parseAttribute`
returns the record whose value is the bytes that follow the length field. -/
theorem parseAttribute_record (name typ after : List Byte) (s : List Nat)
    (hn0 : name ≠ []) (hn255 : name.length ≤ 255) (hnz : (0 : Byte) ∉ name)
    (htz : (0 : Byte) ∉ typ) (ha : after ≠ [])
    (hlen : lengthField ⟨after, s⟩ ≤ (afterLength ⟨after, s⟩).data.length) :
    ∃ j, parseAttribute ⟨name ++ 0 :: (typ ++ 0 :: after), s⟩
      = Result.ret (some ⟨name, typ, (lengthField ⟨after, s⟩ : Int),
          (afterLength ⟨after, s⟩).data.take (lengthField ⟨after, s⟩)⟩)
          ⟨(afterLength ⟨after, s⟩).data.drop (lengthField ⟨after, s⟩), s.drop j⟩ := by
  have hlen0 : name.length ≠ 0 := by
    intro e; exact hn0 (List.length_eq_zero.mp e)
  obtain ⟨j, hs'⟩ := readValue_exact (lengthField ⟨after, s⟩) (lengthField ⟨after, s⟩) []
    (afterLength ⟨after, s⟩) (le_refl _) hlen
  have hsch : (afterLength ⟨after, s⟩).sched = s.tail := by
    simp [afterLength, Read_of_ne_nil ⟨after, s⟩ 4 (by norm_num) ha]
  rw [hsch] at hs'
  refine ⟨j + 1, ?_⟩
  have hR : Reader.Read ⟨after, s⟩ 4
      = ((Reader.Read ⟨after, s⟩ 4).1, none, afterLength ⟨after, s⟩) := by
    rw [Read_of_ne_nil ⟨after, s⟩ 4 (by norm_num) ha]
    simp [afterLength, Read_of_ne_nil ⟨after, s⟩ 4 (by norm_num) ha]
  unfold parseAttribute
  rw [ReadBytes_append 0 name _ s hnz]
  simp only [List.dropLast_concat, hlen0, if_false, if_neg (not_lt.mpr hn255)]
  rw [ReadBytes_append 0 typ _ s htz]
  simp only [List.dropLast_concat, List.length_append, List.length_singleton]
  rw [if_neg (by omega)]
  rw [hR]
  dsimp only
  have hsz : goInt (Uint32 (fillBuf 4 (Reader.Read ⟨after, s⟩ 4).1))
      = (lengthField ⟨after, s⟩ : Int) := by
    rw [goInt_Uint32]; rfl
  rw [hsz, if_neg (by omega), Int.toNat_ofNat, hs']
  simp

theorem toNat_ofNat_mod (x : Nat) : (UInt8.ofNat (x % 256)).toNat = x % 256 := by
  simp [UInt8.toNat, UInt8.ofNat, Fin.ofNat]

theorem leValue_putUint32 (x : Nat) (hx : x < 2 ^ 32) : leValue (putUint32 x) = x := by
  simp only [putUint32, leValue, toNat_ofNat_mod]
  omega

theorem leValue_append_zeros (l : List Byte) (m : Nat) :
    leValue (l ++ List.replicate m 0) = leValue l := by
  induction l with
  | nil =>
    induction m with
    | zero => simp [leValue]
    | succ m ih =>
      simp only [List.nil_append] at ih
      simp [List.replicate_succ, leValue, ih]
  | cons b bs ih => simp [leValue, ih]

theorem leValue_take_le (l : List Byte) (k : Nat) : leValue (l.take k) ≤ leValue l := by
  induction l generalizing k with
  | nil => simp [leValue]
  | cons b bs ih =>
    cases k with
    | zero => simp [leValue]
    | succ k =>
      have := ih k
      simp only [List.take_succ_cons, leValue]
      omega

theorem fillBuf_length (k : Nat) (got : List Byte) (h : got.length ≤ k) :
    (fillBuf k got).length = k := by
  simp [fillBuf]; omega

/-- A length field read in pieces never decodes to more than it encodes, and
the bytes that a short read leaves behind stay in the stream. -/
theorem lengthField_putUint32 (x : Nat) (hx : x < 2 ^ 32) (tail : List Byte) (s : List Nat) :
    lengthField ⟨putUint32 x ++ tail, s⟩ ≤ x
    ∧ tail.length ≤ (afterLength ⟨putUint32 x ++ tail, s⟩).data.length := by
  have hne : (putUint32 x ++ tail) ≠ [] := by simp [putUint32]
  have hc := readCount_le ⟨putUint32 x ++ tail, s⟩ 4
  have hlen4 : (putUint32 x).length = 4 := rfl
  set k := Reader.readCount ⟨putUint32 x ++ tail, s⟩ 4 with hk
  have htake : (putUint32 x ++ tail).take k = (putUint32 x).take k := by
    rw [List.take_append_of_le_length (by omega)]
  constructor
  · unfold lengthField
    rw [Read_of_ne_nil _ 4 (by norm_num) hne]
    simp only [← hk, htake]
    unfold Uint32
    have hfl : (fillBuf 4 ((putUint32 x).take k)).length = 4 :=
      fillBuf_length 4 _ (by simp [List.length_take]; omega)
    rw [List.take_of_length_le (by omega)]
    unfold fillBuf
    rw [leValue_append_zeros]
    calc leValue ((putUint32 x).take k) ≤ leValue (putUint32 x) := leValue_take_le _ _
      _ = x := leValue_putUint32 x hx
  · unfold afterLength
    rw [Read_of_ne_nil _ 4 (by norm_num) hne]
    simp only [← hk, List.length_drop, List.length_append, hlen4]
    omega

theorem Read_error_eq (rd : Reader) (k : Nat) (e : GoError)
    (h : (rd.Read k).2.1 = some e) : e = GoError.EOF := by
  unfold Reader.Read at h
  split at h
  · simp at h
  · split at h
    · simp at h
      exact h.symm
    · simp at h

theorem ReadBytes_error_eq (rd : Reader) (d : Byte) (e : GoError)
    (h : (rd.ReadBytes d).2.1 = some e) : e = GoError.EOF := by
  unfold Reader.ReadBytes at h
  split at h
  · simp at h
  · simp at h
    exact h.symm

theorem readValue_fail_eq (fuel : Nat) : ∀ (remain : Int) (acc : List Byte) (rd : Reader)
    (e : GoError) (rd1 : Reader), readValue fuel remain acc rd = Result.fail e rd1 →
    e = GoError.EOF := by
  induction fuel with
  | zero =>
    intro remain acc rd e rd1 h
    unfold readValue at h
    split at h <;> simp at h
  | succ fuel ih =>
    intro remain acc rd e rd1 h
    unfold readValue at h
    by_cases hpos : remain > 0
    · rw [if_pos hpos] at h
      dsimp only at h
      generalize (if remain > MaxScanTokenSize then MaxScanTokenSize else remain).toNat = k at h
      split at h
      · rename_i hR
        simp only [Result.fail.injEq] at h
        rw [← h.1]
        exact Read_error_eq rd k _ (by rw [hR])
      · exact ih _ _ _ _ _ h
    · rw [if_neg hpos] at h
      simp at h

/-- After a name that passes the length test, the only error that
`parseAttribute` returns is the end of the stream. -/
theorem parseAttribute_fail_eq (name tail : List Byte) (s : List Nat)
    (hn255 : name.length ≤ 255) (hnz : (0 : Byte) ∉ name) (e : GoError) (rd1 : Reader)
    (h : parseAttribute ⟨name ++ 0 :: tail, s⟩ = Result.fail e rd1) : e = GoError.EOF := by
  unfold parseAttribute at h
  rw [ReadBytes_append 0 name _ s hnz] at h
  simp only [List.dropLast_concat, if_neg (not_lt.mpr hn255)] at h
  split at h
  · simp at h
  · split at h
    · simp at h
    · split at h
      · rename_i hR
        simp only [Result.fail.injEq] at h
        exact h.1 ▸ ReadBytes_error_eq _ _ _ hR
      · split at h
        · rename_i hR
          simp only [Result.fail.injEq] at h
          exact h.1 ▸ Read_error_eq _ _ _ (by rw [hR])
        · split at h
          · simp at h
          · split at h
            · simp at h
            · rename_i hV
              simp only [Result.fail.injEq] at h
              exact h.1 ▸ readValue_fail_eq _ _ _ _ _ _ hV
            · simp at h
            · simp at h
            · simp at h

/-- A length field that one `Read` delivers whole is decoded to the number it
encodes, and the stream then stands right after it. -/
theorem lengthField_full (x : Nat) (hx : x < 2 ^ 32) (tail : List Byte) (s : List Nat)
    (hk : Reader.readCount ⟨putUint32 x ++ tail, s⟩ 4 = 4) :
    lengthField ⟨putUint32 x ++ tail, s⟩ = x
    ∧ afterLength ⟨putUint32 x ++ tail, s⟩ = ⟨tail, s.tail⟩ := by
  have hne : (putUint32 x ++ tail) ≠ [] := by simp [putUint32]
  have hlen4 : (putUint32 x).length = 4 := rfl
  constructor
  · unfold lengthField
    rw [Read_of_ne_nil _ 4 (by norm_num) hne]
    simp only [hk]
    rw [List.take_append_of_le_length (by omega), List.take_of_length_le (by omega)]
    unfold Uint32 fillBuf
    simp only [hlen4, Nat.sub_self, List.replicate_zero, List.append_nil]
    rw [List.take_of_length_le (by omega)]
    exact leValue_putUint32 x hx
  · unfold afterLength
    rw [Read_of_ne_nil _ 4 (by norm_num) hne]
    simp only [hk]
    rw [List.drop_append_of_le_length (by omega), List.drop_of_length_le (by omega)]
    simp

/-! ## The magic number (C3) -/

/-- C3, the code at a failing input. The stream begins with the four bytes of
the magic number 20000630, but the first `Read` delivers two of them:
`Decode` discards the count, reads the half-filled buffer as 12150 and returns
the wrong-magic error, for a stream whose first four bytes are the magic
number. -/
theorem Decode_magic_short_read :
    Uint32 [0x76, 0x2F, 0x31, 0x01] = 20000630
    ∧ Decode ⟨[0x76, 0x2F, 0x31, 0x01, 0, 0, 0, 0, 0], [1]⟩
      = Result.fail (GoError.wrongMagic 12150 20000630) ⟨[0x31, 0x01, 0, 0, 0, 0, 0], []⟩ := by
  decide

/-! ## The round trip of a header (C4) -/

/-- C4, the code at a failing input. The header with the single record
(`a`, `t`, value `[65]`) is encoded as the claim says; the `Read` of its
length field delivers two of the four bytes, the next two bytes of the length
field are taken for the value, and the record that comes back has the value
`[0]` instead of `[65]`. -/
theorem parseRecords_short_length_read :
    wellFormedRecord ([97], [116], [65])
    ∧ encodeHeader [([97], [116], [65])] = [97, 0, 116, 0, 1, 0, 0, 0, 65, 0]
    ∧ parseRecords 3 ⟨encodeHeader [([97], [116], [65])], [1]⟩
      = Result.ret [⟨[97], [116], 1, [0]⟩] ⟨[65, 0], []⟩
    ∧ [recordAttribute ([97], [116], [65])] ≠ [⟨[97], [116], 1, [0]⟩] := by
  refine ⟨⟨by decide, by decide, by decide, by decide, by decide⟩, by decide, by decide,
    by decide⟩

/-! ## The value of an attribute (C5) -/

/-- What the value loop does inside `parseAttribute`, relative to the length
that was decoded. Whatever number of bytes, at least one and at most the
number asked for, each call of `Read` delivers: when the stream holds a name, a type tag
and then the length field followed by at least as many bytes as the length
`byte_length` that `parseAttribute` decodes, the attribute returned has
`size = byte_length` and its value is exactly the next `byte_length` bytes of
the stream after the length field, in order: the stream after the length field
is the value followed by what is left unread. This holds for `byte_length = 0`
and for lengths above `bufio.MaxScanTokenSize` alike. In particular, when the
stream holds the encoded length of a value, the value and a rest, and the
`Read` of the length field delivers its four bytes, the attribute has that
value and the stream stands at the rest. -/
theorem parseAttribute_value_exact (name typ after : List Byte) (s : List Nat)
    (hn0 : name ≠ []) (hn255 : name.length ≤ 255) (hnz : (0 : Byte) ∉ name)
    (htz : (0 : Byte) ∉ typ) (ha : after ≠ [])
    (hlen : lengthField ⟨after, s⟩ ≤ (afterLength ⟨after, s⟩).data.length) :
    ∃ a rd, parseAttribute ⟨name ++ 0 :: (typ ++ 0 :: after), s⟩ = Result.ret (some a) rd
      ∧ a.size = (lengthField ⟨after, s⟩ : Int)
      ∧ (a.value.length : Int) = a.size
      ∧ a.value = (afterLength ⟨after, s⟩).data.take (lengthField ⟨after, s⟩)
      ∧ rd.data = (afterLength ⟨after, s⟩).data.drop (lengthField ⟨after, s⟩)
      ∧ (afterLength ⟨after, s⟩).data = a.value ++ rd.data
      ∧ (∀ value rest : List Byte, after = putUint32 value.length ++ (value ++ rest) →
          value.length < 2 ^ 32 → Reader.readCount ⟨after, s⟩ 4 = 4 →
          a.size = (value.length : Int) ∧ a.value = value ∧ rd.data = rest) := by
  obtain ⟨j, hj⟩ := parseAttribute_record name typ after s hn0 hn255 hnz htz ha hlen
  refine ⟨_, _, hj, rfl, ?_, rfl, rfl, ?_, ?_⟩
  · simp only [List.length_take]
    rw [min_eq_left hlen]
  · simp
  · intro value rest he hv hk
    subst he
    obtain ⟨h1, h2⟩ := lengthField_full value.length hv (value ++ rest) s hk
    simp [h1, h2]

/-- A value of three bytes that arrives one byte at a time. -/
theorem parseAttribute_value_exact_witness :
    ∃ a rd, parseAttribute ⟨[97] ++ 0 :: ([116] ++ 0 :: [3, 0, 0, 0, 1, 2, 3, 9]), [3, 0, 0]⟩
        = Result.ret (some a) rd
      ∧ a.size = (lengthField ⟨[3, 0, 0, 0, 1, 2, 3, 9], [3, 0, 0]⟩ : Int)
      ∧ (a.value.length : Int) = a.size
      ∧ a.value = (afterLength ⟨[3, 0, 0, 0, 1, 2, 3, 9], [3, 0, 0]⟩).data.take
          (lengthField ⟨[3, 0, 0, 0, 1, 2, 3, 9], [3, 0, 0]⟩)
      ∧ rd.data = (afterLength ⟨[3, 0, 0, 0, 1, 2, 3, 9], [3, 0, 0]⟩).data.drop
          (lengthField ⟨[3, 0, 0, 0, 1, 2, 3, 9], [3, 0, 0]⟩)
      ∧ (afterLength ⟨[3, 0, 0, 0, 1, 2, 3, 9], [3, 0, 0]⟩).data = a.value ++ rd.data
      ∧ (∀ value rest : List Byte,
          [3, 0, 0, 0, 1, 2, 3, 9] = putUint32 value.length ++ (value ++ rest) →
          value.length < 2 ^ 32 → Reader.readCount ⟨[3, 0, 0, 0, 1, 2, 3, 9], [3, 0, 0]⟩ 4 = 4 →
          a.size = (value.length : Int) ∧ a.value = value ∧ rd.data = rest) :=
  parseAttribute_value_exact [97] [116] [3, 0, 0, 0, 1, 2, 3, 9] [3, 0, 0]
    (by decide) (by decide) (by decide) (by decide) (by decide) (by decide)

/-- C5, the code at a failing input. The record (`a`, `t`) declares the length
4 in the field `04 00 00 00` and is followed by the four bytes
`0a 0b 0c 0d`. The `Read` of the length field delivers one byte; the value
loop then takes the next four bytes of the stream, which are the three bytes
left of the length field and the first byte of the value: the value returned
is `00 00 00 0a`, not `0a 0b 0c 0d`, and `0b 0c 0d` are left unread. -/
theorem parseAttribute_value_short_length_read :
    Uint32 [4, 0, 0, 0] = 4
    ∧ encodeAttribute [97] [116] [10, 11, 12, 13]
      = [97, 0, 116, 0, 4, 0, 0, 0, 10, 11, 12, 13]
    ∧ parseAttribute ⟨[97, 0, 116, 0, 4, 0, 0, 0, 10, 11, 12, 13], [0]⟩
      = Result.ret (some ⟨[97], [116], 4, [0, 0, 0, 10]⟩) ⟨[11, 12, 13], []⟩
    ∧ ([0, 0, 0, 10] : List Byte) ≠ [10, 11, 12, 13] := by
  decide

/-! ## The limit on the length of a name (C6) -/

/-- C6. For a non-empty name before the first 0x00: `parseAttribute` returns
the name-too-long error exactly when the name is longer than 255 bytes, and it
does so without reading past the name's terminator; and on a complete record
whose name has at most 255 bytes (255 included) it succeeds, whatever the
sizes of the single reads are. -/
theorem parseAttribute_name_limit (name tail : List Byte) (s : List Nat)
    (hn0 : name ≠ []) (hnz : (0 : Byte) ∉ name) :
    (255 < name.length →
      parseAttribute ⟨name ++ 0 :: tail, s⟩ = Result.fail GoError.nameTooLong ⟨tail, s⟩)
    ∧ ((∃ rd, parseAttribute ⟨name ++ 0 :: tail, s⟩ = Result.fail GoError.nameTooLong rd)
        ↔ 255 < name.length)
    ∧ (name.length ≤ 255 → ∀ typ value rest : List Byte, (0 : Byte) ∉ typ →
        value.length < 2 ^ 32 → tail = typ ++ 0 :: (putUint32 value.length ++ (value ++ rest)) →
        ∃ a rd, parseAttribute ⟨name ++ 0 :: tail, s⟩ = Result.ret (some a) rd
          ∧ a.name = name ∧ a.typ = typ) := by
  have hlen0 : name.length ≠ 0 := by
    intro e; exact hn0 (List.length_eq_zero.mp e)
  have hlong : 255 < name.length →
      parseAttribute ⟨name ++ 0 :: tail, s⟩ = Result.fail GoError.nameTooLong ⟨tail, s⟩ := by
    intro h
    unfold parseAttribute
    rw [ReadBytes_append 0 name _ s hnz]
    simp only [List.dropLast_concat, hlen0, if_false]
    rw [if_pos h]
  refine ⟨hlong, ⟨?_, fun h => ⟨_, hlong h⟩⟩, ?_⟩
  · rintro ⟨rd, hrd⟩
    by_contra hle
    have := parseAttribute_fail_eq name tail s (by omega) hnz _ _ hrd
    exact GoError.noConfusion this
  · intro hle typ value rest htz hv ht
    subst ht
    have hlf := lengthField_putUint32 value.length hv (value ++ rest) s
    obtain ⟨j, hj⟩ := parseAttribute_record name typ (putUint32 value.length ++ (value ++ rest)) s
      hn0 hle hnz htz (by simp [putUint32])
      (by have : value.length ≤ (value ++ rest).length := by simp
          omega)
    exact ⟨_, _, hj, rfl, rfl⟩

/-- The name `a` passes the test and its record is parsed. -/
theorem parseAttribute_name_limit_witness :
    (255 < [(97 : Byte)].length →
      parseAttribute ⟨[97] ++ 0 :: [116, 0, 1, 0, 0, 0, 65], []⟩
        = Result.fail GoError.nameTooLong ⟨[116, 0, 1, 0, 0, 0, 65], []⟩)
    ∧ ((∃ rd, parseAttribute ⟨[97] ++ 0 :: [116, 0, 1, 0, 0, 0, 65], []⟩
          = Result.fail GoError.nameTooLong rd) ↔ 255 < [(97 : Byte)].length)
    ∧ ([(97 : Byte)].length ≤ 255 → ∀ typ value rest : List Byte, (0 : Byte) ∉ typ →
        value.length < 2 ^ 32 →
        [116, 0, 1, 0, 0, 0, 65] = typ ++ 0 :: (putUint32 value.length ++ (value ++ rest)) →
        ∃ a rd, parseAttribute ⟨[97] ++ 0 :: [116, 0, 1, 0, 0, 0, 65], []⟩ = Result.ret (some a) rd
          ∧ a.name = [97] ∧ a.typ = typ) :=
  parseAttribute_name_limit [97] [116, 0, 1, 0, 0, 0, 65] [] (by decide) (by decide)

/-! ## The end of the header (C7) -/

/-- C7. On a stream whose next byte is 0x00, `parseAttribute` returns
`(nil, nil)` and has consumed that byte and no other; the header loop of
`Decode`, whatever it has put into the map so far, stops there with the map
as it is and the rest of the stream unread, so that no record after the empty
name gets into the map. -/
theorem parseAttribute_end_of_header (rest : List Byte) (s : List Nat) (attrs : AttrMap)
    (fuel : Nat) :
    parseAttribute ⟨0 :: rest, s⟩ = Result.ret none ⟨rest, s⟩
    ∧ headerLoop (fuel + 1) attrs ⟨0 :: rest, s⟩ = Result.ret attrs ⟨rest, s⟩
    ∧ parseHeader ⟨0 :: rest, s⟩ = Result.ret [] ⟨rest, s⟩ := by
  have h : parseAttribute ⟨0 :: rest, s⟩ = Result.ret none ⟨rest, s⟩ := by
    simp [parseAttribute, Reader.ReadBytes, splitAtDelim]
  refine ⟨h, ?_, ?_⟩
  · simp [headerLoop, h]
  · simp [parseHeader, headerLoop, h]

/-! ## Streams that end inside a record (C8) -/

/-- C8, the code at two failing inputs. When the stream ends right after the
terminator of the name `a`, `parseAttribute` slices the empty type tag before
it looks at the error and panics instead of returning an error; when the
stream ends after two zero bytes of the length field of the record (`a`, `t`),
`parseAttribute` returns an attribute of size 0 and no error. -/
theorem parseAttribute_truncated :
    parseAttribute ⟨[97, 0], []⟩ = Result.panic PanicKind.sliceBounds ⟨[], []⟩
    ∧ parseAttribute ⟨[97, 0, 116, 0, 0, 0], []⟩
      = Result.ret (some ⟨[97], [116], 0, []⟩) ⟨[], []⟩ := by
  decide

/-! ## The data window (C9, C10) -/

/-- C9, the code at a failing input. The data window stores the word
0xFFFFFFFF at offset 0, which is -1 as a signed 32-bit integer; `Decode`
converts the unsigned word to the 64-bit `int` and computes
`xMin = 4294967295`. -/
theorem Decode_dataWindow_unsigned :
    toSigned 32 (Uint32 [0xFF, 0xFF, 0xFF, 0xFF]) = -1
    ∧ Decode ⟨exrStream [0, 0, 0, 0]
          [0xFF, 0xFF, 0xFF, 0xFF, 0, 0, 0, 0, 0, 0, 0, 0, 0, 0, 0, 0]
          [100, 0, 0, 0, 0, 0, 0, 0], []⟩
      = Result.ret ⟨0, Topology.ScanlineSinglePart.flags, false,
          [⟨dataWindowName, box2iName, 16,
            [0xFF, 0xFF, 0xFF, 0xFF, 0, 0, 0, 0, 0, 0, 0, 0, 0, 0, 0, 0]⟩],
          4294967295, 0, 0, 0, [100]⟩ ⟨[], []⟩ := by
  decide

/-- C10, the code at a failing input. The data window stores `yMin = -1` (the
word 0xFFFFFFFF) and `yMax = 0`, and the stream holds two offsets; `Decode`
computes the line count `0 - 4294967295 + 1`, which is negative, and panics in
`make` without reading an offset, where the claim counts two offsets. -/
theorem Decode_negative_yMin :
    toSigned 32 (Uint32 [0, 0, 0, 0]) - toSigned 32 (Uint32 [0xFF, 0xFF, 0xFF, 0xFF]) + 1 = 2
    ∧ Decode ⟨exrStream [0, 0, 0, 0]
          [0, 0, 0, 0, 0xFF, 0xFF, 0xFF, 0xFF, 0, 0, 0, 0, 0, 0, 0, 0]
          [100, 0, 0, 0, 0, 0, 0, 0, 200, 0, 0, 0, 0, 0, 0, 0], []⟩
      = Result.panic PanicKind.makeNegativeCap
          ⟨[100, 0, 0, 0, 0, 0, 0, 0, 200, 0, 0, 0, 0, 0, 0, 0], []⟩ := by
  decide

/-! ## Reads that are satisfied in full -/

/-- When the `Read` of the length field delivers its four bytes, an encoded
record is parsed back, whatever the sizes of the reads of the value are. -/
theorem parseAttribute_encoded_of_full (r : List Byte × List Byte × List Byte)
    (hr : wellFormedRecord r) (rest : List Byte) (s : List Nat)
    (hk : Reader.readCount ⟨putUint32 r.2.2.length ++ (r.2.2 ++ rest), s⟩ 4 = 4) :
    ∃ j, parseAttribute ⟨encodeAttribute r.1 r.2.1 r.2.2 ++ rest, s⟩
      = Result.ret (some (recordAttribute r)) ⟨rest, s.drop j⟩ := by
  obtain ⟨hn0, hn255, hnz, htz, hv⟩ := hr
  obtain ⟨h1, h2⟩ := lengthField_full r.2.2.length hv (r.2.2 ++ rest) s hk
  obtain ⟨j, hj⟩ := parseAttribute_record r.1 r.2.1 (putUint32 r.2.2.length ++ (r.2.2 ++ rest)) s
    hn0 hn255 hnz htz (by simp [putUint32]) (by rw [h1, h2]; simp)
  have e : encodeAttribute r.1 r.2.1 r.2.2 ++ rest
      = r.1 ++ 0 :: (r.2.1 ++ 0 :: (putUint32 r.2.2.length ++ (r.2.2 ++ rest))) := by
    simp [encodeAttribute, List.append_assoc]
  refine ⟨j, ?_⟩
  rw [e, hj, h1, h2]
  simp [recordAttribute]

/-- With every read satisfied in full, an encoded record is parsed back. -/
theorem parseAttribute_encoded (r : List Byte × List Byte × List Byte) (hr : wellFormedRecord r)
    (rest : List Byte) :
    parseAttribute ⟨encodeAttribute r.1 r.2.1 r.2.2 ++ rest, []⟩
      = Result.ret (some (recordAttribute r)) ⟨rest, []⟩ := by
  obtain ⟨j, hj⟩ := parseAttribute_encoded_of_full r hr rest []
    (by simp [Reader.readCount, putUint32])
  simpa using hj

/-- With every read satisfied in full, the records of an encoded header come
back as they were, in their order, and the stream stands after the
terminator. -/
theorem parseRecords_encodeHeader (records : List (List Byte × List Byte × List Byte))
    (hwf : ∀ r ∈ records, wellFormedRecord r) (rest : List Byte) (fuel : Nat)
    (hfuel : records.length < fuel) :
    parseRecords fuel ⟨encodeHeader records ++ rest, []⟩
      = Result.ret (records.map recordAttribute) ⟨rest, []⟩ := by
  induction records generalizing fuel with
  | nil =>
    obtain ⟨f, rfl⟩ : ∃ f, fuel = f + 1 := ⟨fuel - 1, by simp at hfuel; omega⟩
    have h := (parseAttribute_end_of_header_aux rest [])
    simp [parseRecords, encodeHeader, h]
  | cons r rs ih =>
    obtain ⟨f, rfl⟩ : ∃ f, fuel = f + 1 := ⟨fuel - 1, by simp at hfuel; omega⟩
    have hr : wellFormedRecord r := hwf r (by simp)
    have hrs : ∀ x ∈ rs, wellFormedRecord x := fun x hx => hwf x (by simp [hx])
    have hp := parseAttribute_encoded r hr (encodeHeader rs ++ rest)
    have e : encodeHeader (r :: rs) ++ rest
        = encodeAttribute r.1 r.2.1 r.2.2 ++ (encodeHeader rs ++ rest) := by
      obtain ⟨n, t, v⟩ := r
      simp [encodeHeader, List.append_assoc]
    rw [e]
    unfold parseRecords
    rw [hp]
    simp only []
    rw [ih hrs f (by simp at hfuel; omega)]
    simp

/-! ## What `Decode` returns as an error -/

theorem headerLoop_ne_fail (fuel : Nat) : ∀ (attrs : AttrMap) (rd : Reader) (e : GoError)
    (rd1 : Reader), headerLoop fuel attrs rd ≠ Result.fail e rd1 := by
  induction fuel with
  | zero =>
    intro attrs rd e rd1 h
    simp [headerLoop] at h
  | succ fuel ih =>
    intro attrs rd e rd1 h
    unfold headerLoop at h
    split at h
    · simp at h
    · simp at h
    · exact ih _ _ _ _ h
    · simp at h
    · simp at h
    · simp at h

theorem offsetLoop_ne_fail (n : Nat) : ∀ (offsets : List Int) (rd : Reader) (e : GoError)
    (rd1 : Reader), offsetLoop n offsets rd ≠ Result.fail e rd1 := by
  induction n with
  | zero =>
    intro offsets rd e rd1 h
    simp [offsetLoop] at h
  | succ n ih =>
    intro offsets rd e rd1 h
    unfold offsetLoop at h
    split at h
    · simp at h
    · exact ih _ _ _ _ h

theorem decodeBody_ne_fail (version : Int) (ty : ImageType) (long : Bool) (attrs : AttrMap)
    (rd : Reader) (e : GoError) (rd1 : Reader) :
    decodeBody version ty long attrs rd ≠ Result.fail e rd1 := by
  intro h
  unfold decodeBody at h
  split at h
  · simp at h
  · split at h
    · dsimp only at h
      split at h
      · simp at h
      · split at h
        · simp at h
        · rename_i hO
          exact offsetLoop_ne_fail _ _ _ _ _ hO
        · simp at h
        · simp at h
        · simp at h
    · simp at h

/-- The only error that `Decode` returns is the wrong-magic error of its first
test, with the stream as the `Read` of the magic number left it. -/
theorem Decode_fail_eq (rd : Reader) (e : GoError) (rd1 : Reader)
    (h : Decode rd = Result.fail e rd1) :
    e = GoError.wrongMagic (goInt (Uint32 (fillBuf 4 (rd.Read 4).1))) MagicNumber
    ∧ goInt (Uint32 (fillBuf 4 (rd.Read 4).1)) ≠ MagicNumber
    ∧ rd1 = (rd.Read 4).2.2 := by
  unfold Decode at h
  rcases hR : rd.Read 4 with ⟨got, err, rd2⟩
  rw [hR] at h
  cases err with
  | some err => simp at h
  | none =>
    dsimp only at h ⊢
    by_cases hm : goInt (Uint32 (fillBuf 4 got)) ≠ MagicNumber
    · rw [if_pos hm] at h
      simp only [Result.fail.injEq] at h
      exact ⟨h.1.symm, hm, h.2.symm⟩
    · rw [if_neg hm] at h
      rcases hV : rd2.Read 4 with ⟨got2, err2, rd3⟩
      rw [hV] at h
      cases err2 with
      | some err2 => simp at h
      | none =>
        dsimp only at h
        cases hH : parseHeader rd3 with
        | ret attrs rd4 =>
          rw [hH] at h
          exact absurd h (decodeBody_ne_fail _ _ _ _ _ _ _)
        | fail e4 rd4 => exact absurd hH (headerLoop_ne_fail _ _ _ _ _)
        | exit w rd4 => rw [hH] at h; simp at h
        | panic w rd4 => rw [hH] at h; simp at h
        | timeout => rw [hH] at h; simp at h

/-- Four bytes that differ from the magic number give the wrong-magic error,
however many of them the first `Read` delivers; the stream is then at most
four bytes further. -/
theorem Decode_wrongMagic_of_ne (rd : Reader) (h4 : 4 ≤ rd.data.length)
    (hne : Uint32 (rd.data.take 4) ≠ 20000630) :
    rd.readCount 4 ≤ 4
    ∧ ∃ m, Decode rd = Result.fail (GoError.wrongMagic m MagicNumber)
        ⟨rd.data.drop (rd.readCount 4), rd.sched.tail⟩ := by
  have hd : rd.data ≠ [] := by
    intro e; rw [e] at h4; simp at h4
  have hc := readCount_le rd 4
  refine ⟨hc.1, ?_⟩
  have hR := Read_of_ne_nil rd 4 (by norm_num) hd
  have hmag : goInt (Uint32 (fillBuf 4 (rd.data.take (rd.readCount 4)))) ≠ MagicNumber := by
    rw [goInt_Uint32]
    have hfl : (fillBuf 4 (rd.data.take (rd.readCount 4))).length = 4 :=
      fillBuf_length 4 _ (by simp [List.length_take]; omega)
    have hv : Uint32 (fillBuf 4 (rd.data.take (rd.readCount 4)))
        = leValue (rd.data.take (rd.readCount 4)) := by
      unfold Uint32
      rw [List.take_of_length_le (by omega)]
      unfold fillBuf
      rw [leValue_append_zeros]
    rw [hv]
    by_cases hn : rd.readCount 4 = 4
    · rw [hn]
      have : Uint32 (rd.data.take 4) = leValue (rd.data.take 4) := by
        unfold Uint32
        rw [List.take_take]
        simp
      rw [this] at hne
      simp only [MagicNumber]
      exact_mod_cast hne
    · have hlt := leValue_lt (rd.data.take (rd.readCount 4))
      have hl : (rd.data.take (rd.readCount 4)).length ≤ 3 := by
        simp [List.length_take]; omega
      have : 256 ^ (rd.data.take (rd.readCount 4)).length ≤ 256 ^ 3 :=
        Nat.pow_le_pow_right (by norm_num) hl
      have h3 : leValue (rd.data.take (rd.readCount 4)) < 16777216 := by
        calc leValue (rd.data.take (rd.readCount 4))
            < 256 ^ (rd.data.take (rd.readCount 4)).length := hlt
          _ ≤ 256 ^ 3 := this
          _ = 16777216 := by norm_num
      simp only [MagicNumber]
      intro e
      have : leValue (rd.data.take (rd.readCount 4)) = 20000630 := by exact_mod_cast e
      omega
  refine ⟨goInt (Uint32 (fillBuf 4 (rd.data.take (rd.readCount 4)))), ?_⟩
  unfold Decode
  rw [hR]
  dsimp only
  rw [if_pos hmag]

/-- When the first `Read` delivers the four bytes asked for, `Decode` returns
an error if and only if those four bytes differ from the magic number. -/
theorem Decode_fail_iff_of_full (rd : Reader) (h4 : 4 ≤ rd.data.length)
    (hfull : rd.readCount 4 = 4) :
    (∃ e rd1, Decode rd = Result.fail e rd1) ↔ Uint32 (rd.data.take 4) ≠ 20000630 := by
  constructor
  · rintro ⟨e, rd1, h⟩
    obtain ⟨_, hm, _⟩ := Decode_fail_eq rd e rd1 h
    have hd : rd.data ≠ [] := by
      intro e; rw [e] at h4; simp at h4
    rw [Read_of_ne_nil rd 4 (by norm_num) hd, hfull] at hm
    dsimp only at hm
    have hf : fillBuf 4 (rd.data.take 4) = rd.data.take 4 := by
      simp [fillBuf, List.length_take, h4]
    rw [hf, goInt_Uint32] at hm
    intro e
    apply hm
    simp only [MagicNumber]
    exact_mod_cast e
  · intro hne
    obtain ⟨_, m, hm⟩ := Decode_wrongMagic_of_ne rd h4 hne
    exact ⟨_, _, hm⟩

/-! ## The loops have fuel enough -/

theorem Read_length_le (rd : Reader) (k : Nat) : (rd.Read k).2.2.data.length ≤ rd.data.length := by
  unfold Reader.Read
  split
  · exact le_refl _
  · split
    · simp
    · simp [List.length_drop]

theorem Read_ok_length (rd : Reader) (k : Nat) (hk : 0 < k) (b : List Byte) (rd1 : Reader)
    (h : rd.Read k = (b, none, rd1)) : 0 < b.length := by
  unfold Reader.Read at h
  rw [if_neg (by omega)] at h
  split at h
  · simp at h
  · rename_i x xs hd
    have hne : rd.data ≠ [] := by rw [hd]; simp
    have h1 := readCount_pos rd k hk hne
    have h2 := readCount_le rd k
    simp only [Prod.mk.injEq] at h
    rw [← h.1, List.length_take]
    omega

theorem splitAtDelim_length (d : Byte) : ∀ (l line rest : List Byte),
    splitAtDelim d l = some (line, rest) → rest.length < l.length := by
  intro l
  induction l with
  | nil => intro line rest h; simp [splitAtDelim] at h
  | cons b bs ih =>
    intro line rest h
    unfold splitAtDelim at h
    split at h
    · simp only [Option.some.injEq, Prod.mk.injEq] at h
      rw [← h.2]; simp
    · split at h
      · simp at h
      · rename_i line1 rest1 hs
        simp only [Option.some.injEq, Prod.mk.injEq] at h
        have := ih _ _ hs
        rw [← h.2]
        simp only [List.length_cons]
        omega

theorem ReadBytes_ok_length (rd : Reader) (d : Byte) (line : List Byte) (rd1 : Reader)
    (h : rd.ReadBytes d = (line, none, rd1)) : rd1.data.length < rd.data.length := by
  unfold Reader.ReadBytes at h
  split at h
  · rename_i line1 rest1 hs
    simp only [Prod.mk.injEq] at h
    rw [← h.2.2]
    exact splitAtDelim_length d _ _ _ hs
  · simp at h

theorem readValue_ne_timeout (fuel : Nat) : ∀ (remain : Int) (acc : List Byte) (rd : Reader),
    remain ≤ fuel → readValue fuel remain acc rd ≠ Result.timeout := by
  induction fuel with
  | zero =>
    intro remain acc rd h1 h
    unfold readValue at h
    rw [if_neg (by simpa using h1)] at h
    simp at h
  | succ fuel ih =>
    intro remain acc rd h1 h
    unfold readValue at h
    by_cases hpos : remain > 0
    · rw [if_pos hpos] at h
      dsimp only at h
      have hk : 0 < (if remain > MaxScanTokenSize then MaxScanTokenSize else remain).toNat := by
        split
        · simp [MaxScanTokenSize]
        · omega
      generalize (if remain > MaxScanTokenSize then MaxScanTokenSize else remain).toNat = k at h hk
      rcases hR : rd.Read k with ⟨b, err, rd1⟩
      rw [hR] at h
      cases err with
      | some err => simp at h
      | none =>
        dsimp only at h
        have hb := Read_ok_length rd k hk b rd1 hR
        exact ih _ _ _ (by push_cast at h1; omega) h
    · rw [if_neg hpos] at h
      simp at h

theorem readValue_length_le (fuel : Nat) : ∀ (remain : Int) (acc : List Byte) (rd : Reader)
    (v : List Byte) (rd1 : Reader), readValue fuel remain acc rd = Result.ret v rd1 →
    rd1.data.length ≤ rd.data.length := by
  induction fuel with
  | zero =>
    intro remain acc rd v rd1 h
    unfold readValue at h
    split at h
    · simp at h
    · simp only [Result.ret.injEq] at h
      rw [← h.2]
  | succ fuel ih =>
    intro remain acc rd v rd1 h
    unfold readValue at h
    by_cases hpos : remain > 0
    · rw [if_pos hpos] at h
      dsimp only at h
      generalize (if remain > MaxScanTokenSize then MaxScanTokenSize else remain).toNat = k at h
      rcases hR : rd.Read k with ⟨b, err, rd2⟩
      rw [hR] at h
      cases err with
      | some err => simp at h
      | none =>
        dsimp only at h
        have h1 := ih _ _ _ _ _ h
        have h2 := Read_length_le rd k
        rw [hR] at h2
        exact le_trans h1 h2
    · rw [if_neg hpos] at h
      simp only [Result.ret.injEq] at h
      rw [← h.2]

/-- `parseAttribute` never runs out of fuel, and a record that it returns has
taken at least one byte from the stream. -/
theorem parseAttribute_progress (rd : Reader) :
    parseAttribute rd ≠ Result.timeout
    ∧ ∀ a rd1, parseAttribute rd = Result.ret a rd1 → rd1.data.length < rd.data.length := by
  unfold parseAttribute
  rcases hN : rd.ReadBytes 0 with ⟨nameByte, err, rd1⟩
  cases err with
  | some err => simp
  | none =>
    have hlt := ReadBytes_ok_length rd 0 nameByte rd1 hN
    dsimp only
    by_cases h0 : nameByte.dropLast.length = 0
    · rw [if_pos h0]
      refine ⟨by simp, ?_⟩
      intro a rd2 h
      simp only [Result.ret.injEq] at h
      rw [← h.2]; exact hlt
    · rw [if_neg h0]
      by_cases h255 : nameByte.dropLast.length > 255
      · rw [if_pos h255]; simp
      · rw [if_neg h255]
        rcases hT : rd1.ReadBytes 0 with ⟨typeByte, err, rd2⟩
        dsimp only
        by_cases ht0 : typeByte.length = 0
        · rw [if_pos ht0]; simp
        · rw [if_neg ht0]
          cases err with
          | some err => simp
          | none =>
            have hlt2 := ReadBytes_ok_length rd1 0 typeByte rd2 hT
            dsimp only
            rcases hS : rd2.Read 4 with ⟨got, err, rd3⟩
            cases err with
            | some err => simp
            | none =>
              dsimp only
              have hle3 := Read_length_le rd2 4
              rw [hS] at hle3
              dsimp only at hle3
              by_cases hneg : goInt (Uint32 (fillBuf 4 got)) < 0
              · rw [if_pos hneg]; simp
              · rw [if_neg hneg]
                have hnt := readValue_ne_timeout (goInt (Uint32 (fillBuf 4 got))).toNat
                  (goInt (Uint32 (fillBuf 4 got))) [] rd3 (by omega)
                cases hV : readValue (goInt (Uint32 (fillBuf 4 got))).toNat
                    (goInt (Uint32 (fillBuf 4 got))) [] rd3 with
                | ret v rd4 =>
                  have := readValue_length_le _ _ _ _ _ _ hV
                  refine ⟨by simp, ?_⟩
                  intro a rd5 h
                  simp only [Result.ret.injEq] at h
                  rw [← h.2]
                  omega
                | fail e rd4 => simp
                | exit w rd4 => simp
                | panic w rd4 => simp
                | timeout => exact absurd hV hnt

theorem headerLoop_ne_timeout (fuel : Nat) : ∀ (attrs : AttrMap) (rd : Reader),
    rd.data.length < fuel → headerLoop fuel attrs rd ≠ Result.timeout := by
  induction fuel with
  | zero => intro attrs rd h; omega
  | succ fuel ih =>
    intro attrs rd hf h
    obtain ⟨hnt, hprog⟩ := parseAttribute_progress rd
    unfold headerLoop at h
    cases hP : parseAttribute rd with
    | ret a rd1 =>
      rw [hP] at h
      have := hprog a rd1 hP
      cases a with
      | none => simp at h
      | some attr => exact ih _ _ (by omega) h
    | fail e rd1 => rw [hP] at h; simp at h
    | exit w rd1 => rw [hP] at h; simp at h
    | panic w rd1 => rw [hP] at h; simp at h
    | timeout => exact hnt hP

/-- The header loop of `Decode` always comes to an end. -/
theorem parseHeader_ne_timeout (rd : Reader) : parseHeader rd ≠ Result.timeout :=
  headerLoop_ne_timeout _ _ _ (Nat.lt_succ_self _)

theorem offsetLoop_ne_timeout (n : Nat) : ∀ (offsets : List Int) (rd : Reader),
    offsetLoop n offsets rd ≠ Result.timeout := by
  induction n with
  | zero => intro offsets rd h; simp [offsetLoop] at h
  | succ n ih =>
    intro offsets rd h
    unfold offsetLoop at h
    rcases hR : rd.Read 8 with ⟨got, err, rd1⟩
    rw [hR] at h
    cases err with
    | some err => simp at h
    | none => exact ih _ _ h

/-- `Decode` always comes to an end: it returns, exits or panics. -/
theorem Decode_ne_timeout (rd : Reader) : Decode rd ≠ Result.timeout := by
  intro h
  unfold Decode at h
  rcases hR : rd.Read 4 with ⟨got, err, rd2⟩
  rw [hR] at h
  cases err with
  | some err => simp at h
  | none =>
    dsimp only at h
    split at h
    · simp at h
    · rcases hV : rd2.Read 4 with ⟨got2, err2, rd3⟩
      rw [hV] at h
      cases err2 with
      | some err2 => simp at h
      | none =>
        dsimp only at h
        cases hH : parseHeader rd3 with
        | ret attrs rd4 =>
          rw [hH] at h
          dsimp only at h
          unfold decodeBody at h
          split at h
          · simp at h
          · split at h
            · dsimp only at h
              split at h
              · simp at h
              · split at h
                · simp at h
                · simp at h
                · simp at h
                · simp at h
                · rename_i hO
                  exact offsetLoop_ne_timeout _ _ _ hO
            · simp at h
        | fail e4 rd4 => rw [hH] at h; simp at h
        | exit w rd4 => rw [hH] at h; simp at h
        | panic w rd4 => rw [hH] at h; simp at h
        | timeout => exact parseHeader_ne_timeout _ hH

/-! ## The offset loop -/

/-- With eight bytes in the stream for every iteration, the offset loop runs
to its end and appends one offset for each iteration, whatever the sizes of
the single reads are. -/
theorem offsetLoop_length (n : Nat) : ∀ (offsets : List Int) (rd : Reader),
    8 * n ≤ rd.data.length →
    ∃ offs rd1, offsetLoop n offsets rd = Result.ret offs rd1
      ∧ offs.length = offsets.length + n := by
  induction n with
  | zero =>
    intro offsets rd _
    exact ⟨offsets, rd, by simp [offsetLoop], by simp⟩
  | succ n ih =>
    intro offsets rd h
    have hd : rd.data ≠ [] := by
      intro e; rw [e] at h; simp at h
    have hc := readCount_le rd 8
    obtain ⟨offs, rd1, h1, h2⟩ := ih
      (offsets ++ [goInt64 (Uint64 (fillBuf 8 (rd.data.take (rd.readCount 8))))])
      ⟨rd.data.drop (rd.readCount 8), rd.sched.tail⟩
      (by simp only [List.length_drop]; omega)
    refine ⟨offs, rd1, ?_, ?_⟩
    · unfold offsetLoop
      rw [Read_of_ne_nil rd 8 (by norm_num) hd]
      exact h1
    · rw [h2]
      simp only [List.length_append, List.length_singleton]
      omega

/-- For a data window of sixteen bytes whose words, read as unsigned numbers,
satisfy `yMin ≤ yMax`, and a stream with eight bytes for each line, the rest
of `Decode` reads `yMax - yMin + 1` offsets. -/
theorem decodeBody_offsets_length (version : Int) (ty : ImageType) (long : Bool) (attrs : AttrMap)
    (rd : Reader) (dataWindow : Attribute)
    (hlook : attrs.lookup dataWindowName = some dataWindow)
    (h16 : dataWindow.value.length = 16)
    (hle : Uint32 ((dataWindow.value.take 8).drop 4) ≤ Uint32 ((dataWindow.value.take 16).drop 12))
    (hbytes : 8 * (Uint32 ((dataWindow.value.take 16).drop 12)
        - Uint32 ((dataWindow.value.take 8).drop 4) + 1) ≤ rd.data.length) :
    ∃ d rd1, decodeBody version ty long attrs rd = Result.ret d rd1
      ∧ d.offsets.length = Uint32 ((dataWindow.value.take 16).drop 12)
          - Uint32 ((dataWindow.value.take 8).drop 4) + 1 := by
  have hcount : goInt (Uint32 ((dataWindow.value.take 16).drop 12))
      - goInt (Uint32 ((dataWindow.value.take 8).drop 4)) + 1
      = ((Uint32 ((dataWindow.value.take 16).drop 12)
          - Uint32 ((dataWindow.value.take 8).drop 4) + 1 : Nat) : Int) := by
    rw [goInt_Uint32, goInt_Uint32]
    omega
  obtain ⟨offs, rd1, h1, h2⟩ := offsetLoop_length
    (Uint32 ((dataWindow.value.take 16).drop 12) - Uint32 ((dataWindow.value.take 8).drop 4) + 1)
    [] rd hbytes
  refine ⟨⟨version, ty, long, attrs, goInt (Uint32 ((dataWindow.value.take 4).drop 0)),
    goInt (Uint32 ((dataWindow.value.take 8).drop 4)),
    goInt (Uint32 ((dataWindow.value.take 12).drop 8)),
    goInt (Uint32 ((dataWindow.value.take 16).drop 12)), offs⟩, rd1, ?_, by simpa using h2⟩
  unfold decodeBody
  rw [hlook]
  simp only [slice, h16]
  simp only [Nat.zero_le, Nat.le_refl, and_self, if_true, (by norm_num : (4:Nat) ≤ 16),
    (by norm_num : (4:Nat) ≤ 8), (by norm_num : (8:Nat) ≤ 16), (by norm_num : (8:Nat) ≤ 12),
    (by norm_num : (12:Nat) ≤ 16)]
  rw [hcount, if_neg (by omega), Int.toNat_ofNat, h1]

/-! ## The missing data window (C12) -/

theorem lookup_eq_none_iff (attrs : AttrMap) (name : List Byte) :
    attrs.lookup name = none ↔ ∀ a ∈ attrs, a.name ≠ name := by
  simp [AttrMap.lookup, List.find?_eq_none]

theorem offsetLoop_exit_eq (n : Nat) : ∀ (offsets : List Int) (rd : Reader) (w : ExitReason)
    (rd1 : Reader), offsetLoop n offsets rd = Result.exit w rd1 →
    ∃ e, w = ExitReason.offsetRead e := by
  induction n with
  | zero =>
    intro offsets rd w rd1 h
    simp [offsetLoop] at h
  | succ n ih =>
    intro offsets rd w rd1 h
    unfold offsetLoop at h
    rcases hR : rd.Read 8 with ⟨got, err, rd2⟩
    rw [hR] at h
    cases err with
    | some err =>
      simp only [Result.exit.injEq] at h
      exact ⟨err, h.1.symm⟩
    | none => exact ih _ _ _ _ h

/-- With an entry for `dataWindow` in the map, the rest of `Decode` does not
end in the exit for a missing data window. -/
theorem decodeBody_ne_noDataWindow (version : Int) (ty : ImageType) (long : Bool)
    (attrs : AttrMap) (rd : Reader) (dataWindow : Attribute)
    (hlook : attrs.lookup dataWindowName = some dataWindow) (rd1 : Reader) :
    decodeBody version ty long attrs rd ≠ Result.exit ExitReason.noDataWindow rd1 := by
  intro h
  unfold decodeBody at h
  rw [hlook] at h
  split at h
  · rename_i heq
    simp at heq
  · split at h
    · dsimp only at h
      split at h
      · simp at h
      · split at h
        · simp at h
        · simp at h
        · rename_i hO
          obtain ⟨e, he⟩ := offsetLoop_exit_eq _ _ _ _ _ hO
          simp [he] at h
        · simp at h
        · simp at h
    · simp at h

/-- C12. For every attribute map, the part of `Decode` that reads the offset
table ends in the exit for a missing data window (the message `Header does
not have 'dataWindow' attribute`, then `os.Exit(1)`) if and only if no record
of the map is named `dataWindow`, as for the empty map; when it ends in this
way the stream is where it was, so no byte of an offset has been read, and no
offset table is returned. -/
theorem decodeBody_noDataWindow_iff (version : Int) (ty : ImageType) (long : Bool)
    (attrs : AttrMap) (rd : Reader) :
    ((∃ rd1, decodeBody version ty long attrs rd = Result.exit ExitReason.noDataWindow rd1)
        ↔ ∀ a ∈ attrs, a.name ≠ dataWindowName)
    ∧ ((∀ a ∈ attrs, a.name ≠ dataWindowName) →
        decodeBody version ty long attrs rd = Result.exit ExitReason.noDataWindow rd)
    ∧ (∀ rd1, decodeBody version ty long attrs rd = Result.exit ExitReason.noDataWindow rd1 →
        rd1 = rd)
    ∧ decodeBody version ty long [] rd = Result.exit ExitReason.noDataWindow rd := by
  have hnone : (∀ a ∈ attrs, a.name ≠ dataWindowName) →
      decodeBody version ty long attrs rd = Result.exit ExitReason.noDataWindow rd := by
    intro h
    unfold decodeBody
    rw [(lookup_eq_none_iff attrs dataWindowName).mpr h]
  have hsome : ∀ rd1, decodeBody version ty long attrs rd
      = Result.exit ExitReason.noDataWindow rd1 → ∀ a ∈ attrs, a.name ≠ dataWindowName := by
    intro rd1 h
    cases hl : attrs.lookup dataWindowName with
    | none => exact (lookup_eq_none_iff attrs dataWindowName).mp hl
    | some dw => exact absurd h (decodeBody_ne_noDataWindow _ _ _ _ _ dw hl rd1)
  refine ⟨⟨fun ⟨rd1, h⟩ => hsome rd1 h, fun h => ⟨rd, hnone h⟩⟩, hnone, ?_, ?_⟩
  · intro rd1 h
    have h2 := hnone (hsome rd1 h)
    rw [h2] at h
    simp only [Result.exit.injEq, true_and] at h
    exact h.symm
  · rfl

/-! ## The bits that decide (C14) -/

theorem longAttrName_natCast (v : Nat) : longAttrName (v : Int) = v.testBit 10 := by
  unfold longAttrName
  simpa using land_two_pow_ne_zero v 10

/-- C14. Two version words that agree on bits 0x200 (bit 9), 0x800 (bit 11)
and 0x1000 (bit 12) get the same image-type flags, whatever their other bits
are, bit 0x400 and the version-number byte included; and the flag for long
attribute names is true exactly when bit 0x400 (bit 10) is set, whatever the
other bits are. -/
theorem imageType_depends_on_three_bits (v w : Nat) (hv : v < 2 ^ 32) (hw : w < 2 ^ 32)
    (h9 : v.testBit 9 = w.testBit 9) (h11 : v.testBit 11 = w.testBit 11)
    (h12 : v.testBit 12 = w.testBit 12) :
    imageType (goInt v) = imageType (goInt w)
    ∧ (longAttrName (goInt v) = true ↔ v.testBit 10 = true)
    ∧ (longAttrName (goInt w) = true ↔ w.testBit 10 = true) := by
  rw [goInt_of_lt (by omega), goInt_of_lt (by omega), imageType_natCast, imageType_natCast,
    longAttrName_natCast, longAttrName_natCast, h9, h11, h12]
  exact ⟨rfl, Iff.rfl, Iff.rfl⟩

/-- The words 0x0A02 and 0x0EFF agree on bits 9, 11 and 12 and differ in bit
10 and in the version-number byte. -/
theorem imageType_depends_on_three_bits_witness :
    imageType (goInt 0x0A02) = imageType (goInt 0x0EFF)
    ∧ (longAttrName (goInt 0x0A02) = true ↔ Nat.testBit 0x0A02 10 = true)
    ∧ (longAttrName (goInt 0x0EFF) = true ↔ Nat.testBit 0x0EFF 10 = true) :=
  imageType_depends_on_three_bits 0x0A02 0x0EFF (by decide) (by decide) (by decide) (by decide)
    (by decide)

/-! ## The attribute map (C13) -/

theorem find_filter_ne (bs : List Attribute) (x name : List Byte) (h : x ≠ name) :
    (bs.filter (fun b => b.name != x)).find? (fun b => b.name == name)
      = bs.find? (fun b => b.name == name) := by
  induction bs with
  | nil => rfl
  | cons b bs ih =>
    by_cases hb : b.name = x
    · have hbn : (b.name == name) = false := by
        rw [hb]; simpa using h
      have e : List.filter (fun b => b.name != x) (b :: bs)
          = List.filter (fun b => b.name != x) bs := by
        simp [List.filter_cons, hb]
      rw [e, ih]
      simp only [List.find?_cons, hbn]
    · have e : List.filter (fun b => b.name != x) (b :: bs)
          = b :: List.filter (fun b => b.name != x) bs := by
        simp [List.filter_cons, hb]
      rw [e]
      cases hbn : (b.name == name) with
      | true => simp only [List.find?_cons, hbn]
      | false => simp only [List.find?_cons, hbn]; exact ih

theorem lookup_insert (attrs : AttrMap) (a : Attribute) (name : List Byte) :
    (attrs.insert a).lookup name = if a.name = name then some a else attrs.lookup name := by
  unfold AttrMap.insert AttrMap.lookup
  by_cases h : a.name = name
  · have hb : (a.name == name) = true := by simpa using h
    rw [if_pos h]
    simp only [List.find?_cons, hb]
  · have hb : (a.name == name) = false := by simpa using h
    rw [if_neg h]
    simp only [List.find?_cons, hb]
    exact find_filter_ne attrs a.name name h

theorem lookup_foldl_insert (recs : List Attribute) : ∀ (attrs : AttrMap) (name : List Byte),
    (recs.foldl AttrMap.insert attrs).lookup name
      = (recs.reverse.find? (fun a => a.name == name)).or (attrs.lookup name) := by
  induction recs with
  | nil => intro attrs name; simp
  | cons r rs ih =>
    intro attrs name
    rw [List.foldl_cons, ih, lookup_insert, List.reverse_cons, List.find?_append]
    cases hrs : rs.reverse.find? (fun a => a.name == name) with
    | some x => simp
    | none =>
      by_cases h : r.name = name
      · simp [h]
      · simp [h]

theorem lookup_some_name (attrs : AttrMap) (name : List Byte) (a : Attribute)
    (h : attrs.lookup name = some a) : a.name = name ∧ a ∈ attrs := by
  unfold AttrMap.lookup at h
  have h1 := List.find?_some h
  have h2 := List.mem_of_find?_eq_some h
  exact ⟨by simpa using h1, h2⟩

theorem mem_names_iff_lookup (attrs : AttrMap) (name : List Byte) :
    name ∈ attrs.map (fun a => a.name) ↔ (attrs.lookup name).isSome = true := by
  constructor
  · intro h
    by_contra hn
    have hnone : attrs.lookup name = none := by
      cases hl : attrs.lookup name with
      | none => rfl
      | some x => rw [hl] at hn; simp at hn
    have := (lookup_eq_none_iff attrs name).mp hnone
    obtain ⟨a, ha, hane⟩ := List.mem_map.mp h
    exact this a ha hane
  · intro h
    cases hl : attrs.lookup name with
    | none => rw [hl] at h; simp at h
    | some a =>
      obtain ⟨h1, h2⟩ := lookup_some_name attrs name a hl
      exact List.mem_map.mpr ⟨a, h2, h1⟩

theorem insert_names_nodup (attrs : AttrMap) (a : Attribute)
    (h : (attrs.map (fun b => b.name)).Nodup) :
    ((attrs.insert a).map (fun b => b.name)).Nodup := by
  unfold AttrMap.insert
  rw [List.map_cons, List.nodup_cons]
  constructor
  · intro hmem
    obtain ⟨b, hb, hbn⟩ := List.mem_map.mp hmem
    have := (List.mem_filter.mp hb).2
    simp at this
    exact this hbn
  · exact List.Nodup.sublist (List.Sublist.map _ (List.filter_sublist _)) h

theorem foldl_insert_names_nodup (recs : List Attribute) : ∀ (attrs : AttrMap),
    (attrs.map (fun b => b.name)).Nodup →
    ((recs.foldl AttrMap.insert attrs).map (fun b => b.name)).Nodup := by
  induction recs with
  | nil => intro attrs h; exact h
  | cons r rs ih =>
    intro attrs h
    rw [List.foldl_cons]
    exact ih _ (insert_names_nodup attrs r h)

/-- The header loop puts into the map, one after the other, the records that
the successive calls of `parseAttribute` return. -/
theorem headerLoop_of_parseRecords (fuel : Nat) : ∀ (attrs : AttrMap) (rd : Reader)
    (recs : List Attribute) (rd1 : Reader), parseRecords fuel rd = Result.ret recs rd1 →
    headerLoop fuel attrs rd = Result.ret (recs.foldl AttrMap.insert attrs) rd1 := by
  induction fuel with
  | zero =>
    intro attrs rd recs rd1 h
    simp [parseRecords] at h
  | succ fuel ih =>
    intro attrs rd recs rd1 h
    unfold parseRecords at h
    unfold headerLoop
    cases hP : parseAttribute rd with
    | ret a rd2 =>
      rw [hP] at h
      cases a with
      | none =>
        simp only [Result.ret.injEq] at h
        rw [← h.1, ← h.2]
        rfl
      | some attr =>
        dsimp only at h ⊢
        cases hR : parseRecords fuel rd2 with
        | ret rs rd3 =>
          rw [hR] at h
          simp only [Result.ret.injEq] at h
          rw [ih _ _ _ _ hR, ← h.1, ← h.2]
          rfl
        | fail e rd3 => rw [hR] at h; simp at h
        | exit w rd3 => rw [hR] at h; simp at h
        | panic w rd3 => rw [hR] at h; simp at h
        | timeout => rw [hR] at h; simp at h
    | fail e rd2 => rw [hP] at h; simp at h
    | exit w rd2 => rw [hP] at h; simp at h
    | panic w rd2 => rw [hP] at h; simp at h
    | timeout => rw [hP] at h; simp at h

/-- C13. When the successive calls of `parseAttribute` return the records
`recs` and then the end of the header, the map that the header loop of
`Decode` builds has exactly the names of `recs` as its keys, each key once,
and the entry under a name is the last record of `recs` with that name. -/
theorem parseHeader_last_write_wins (rd : Reader) (recs : List Attribute) (rd1 : Reader)
    (h : parseRecords (rd.data.length + 1) rd = Result.ret recs rd1) :
    ∃ attrs, parseHeader rd = Result.ret attrs rd1
      ∧ (∀ name, attrs.lookup name = recs.reverse.find? (fun a => a.name == name))
      ∧ (∀ name, name ∈ attrs.map (fun a => a.name) ↔ name ∈ recs.map (fun a => a.name))
      ∧ (attrs.map (fun a => a.name)).Nodup := by
  have hlook : ∀ name, (recs.foldl AttrMap.insert []).lookup name
      = recs.reverse.find? (fun a => a.name == name) := by
    intro name
    rw [lookup_foldl_insert]
    simp [AttrMap.lookup]
  refine ⟨recs.foldl AttrMap.insert [], headerLoop_of_parseRecords _ _ _ _ _ h, hlook, ?_, ?_⟩
  · intro name
    rw [mem_names_iff_lookup, hlook]
    constructor
    · intro hs
      cases hf : recs.reverse.find? (fun a => a.name == name) with
      | none => rw [hf] at hs; simp at hs
      | some a =>
        have h1 := List.find?_some hf
        have h2 := List.mem_of_find?_eq_some hf
        exact List.mem_map.mpr ⟨a, by simpa using h2, by simpa using h1⟩
    · intro hm
      obtain ⟨a, ha, hn⟩ := List.mem_map.mp hm
      cases hf : recs.reverse.find? (fun a => a.name == name) with
      | none =>
        have := List.find?_eq_none.mp hf a (by simpa using ha)
        simp [hn] at this
      | some b => rfl
  · exact foldl_insert_names_nodup recs [] (by simp)

/-- Three records, two of them named `a`: the map keeps the second one. -/
theorem parseHeader_last_write_wins_witness :
    ∃ attrs, parseHeader ⟨encodeHeader [([97], [116], [1]), ([98], [116], [2]),
          ([97], [116], [3])], []⟩ = Result.ret attrs ⟨[], []⟩
      ∧ (∀ name, attrs.lookup name
          = ([⟨[97], [116], 1, [1]⟩, ⟨[98], [116], 1, [2]⟩, ⟨[97], [116], 1, [3]⟩] :
              List Attribute).reverse.find? (fun a => a.name == name))
      ∧ (∀ name, name ∈ attrs.map (fun a => a.name)
          ↔ name ∈ ([⟨[97], [116], 1, [1]⟩, ⟨[98], [116], 1, [2]⟩, ⟨[97], [116], 1, [3]⟩] :
              List Attribute).map (fun a => a.name))
      ∧ (attrs.map (fun a => a.name)).Nodup :=
  parseHeader_last_write_wins _ _ _ (by decide)

/-! ## Termination of the value loop (C17) -/

theorem Read_ok_length_le (rd : Reader) (k : Nat) (b : List Byte) (rd1 : Reader)
    (h : rd.Read k = (b, none, rd1)) : b.length ≤ k := by
  unfold Reader.Read at h
  split at h
  · simp only [Prod.mk.injEq] at h
    rw [← h.1]; simp
  · split at h
    · simp at h
    · have h2 := readCount_le rd k
      simp only [Prod.mk.injEq] at h
      rw [← h.1, List.length_take]
      omega

theorem readValueTrace_spec (fuel : Nat) : ∀ (remain : Int) (rd : Reader),
    0 ≤ remain → remain ≤ fuel →
    (∀ it ∈ readValueTrace fuel remain rd,
      0 < it.remain ∧ 0 < it.request ∧ it.request ≤ min it.remain MaxScanTokenSize
      ∧ 1 ≤ it.got ∧ (it.got : Int) ≤ it.request
      ∧ it.remainAfter = it.remain - it.got
      ∧ 0 ≤ it.remainAfter ∧ it.remainAfter < it.remain)
    ∧ ((readValueTrace fuel remain rd).length : Int) ≤ remain := by
  induction fuel with
  | zero =>
    intro remain rd h0 _
    simp [readValueTrace, h0]
  | succ fuel ih =>
    intro remain rd h0 hf
    unfold readValueTrace
    by_cases hpos : remain > 0
    · rw [if_pos hpos]
      dsimp only
      have hs : 0 < (if remain > MaxScanTokenSize then MaxScanTokenSize else remain)
          ∧ (if remain > MaxScanTokenSize then MaxScanTokenSize else remain)
            ≤ min remain MaxScanTokenSize := by
        split
        · rename_i hm
          simp only [MaxScanTokenSize] at hm ⊢
          omega
        · rename_i hm
          simp only [MaxScanTokenSize] at hm ⊢
          omega
      generalize (if remain > MaxScanTokenSize then MaxScanTokenSize else remain) = s at hs
      rcases hR : rd.Read s.toNat with ⟨b, err, rd1⟩
      cases err with
      | some err => simp [hpos.le]
      | none =>
        dsimp only
        have hb1 := Read_ok_length rd s.toNat (by omega) b rd1 hR
        have hb2 := Read_ok_length_le rd s.toNat b rd1 hR
        have hsr : s ≤ remain := le_trans hs.2 (min_le_left _ _)
        obtain ⟨ih1, ih2⟩ := ih (remain - (b.length : Int)) rd1 (by omega)
          (by push_cast at hf; omega)
        constructor
        · intro it hit
          rcases List.mem_cons.mp hit with rfl | hit
          · have hb3 : (b.length : Int) ≤ s := by omega
            exact ⟨hpos, hs.1, hs.2, hb1, hb3, rfl, by dsimp only; omega,
              by dsimp only; omega⟩
          · exact ih1 it hit
        · simp only [List.length_cons]
          push_cast
          omega
    · rw [if_neg hpos]
      simp [h0]

theorem readValue_final_remain (fuel : Nat) : ∀ (remain : Int) (acc : List Byte) (rd : Reader)
    (v : List Byte) (rd1 : Reader), 0 ≤ remain →
    readValue fuel remain acc rd = Result.ret v rd1 →
    (((readValueTrace fuel remain rd).getLast?).map (fun it => it.remainAfter)).getD remain
      = 0 := by
  induction fuel with
  | zero =>
    intro remain acc rd v rd1 h0 h
    unfold readValue at h
    split at h
    · simp at h
    · simp [readValueTrace]; omega
  | succ fuel ih =>
    intro remain acc rd v rd1 h0 h
    unfold readValue at h
    unfold readValueTrace
    by_cases hpos : remain > 0
    · rw [if_pos hpos] at h ⊢
      dsimp only at h ⊢
      have hs : 0 < (if remain > MaxScanTokenSize then MaxScanTokenSize else remain)
          ∧ (if remain > MaxScanTokenSize then MaxScanTokenSize else remain) ≤ remain := by
        split
        · rename_i hm
          simp only [MaxScanTokenSize] at hm ⊢
          omega
        · omega
      generalize (if remain > MaxScanTokenSize then MaxScanTokenSize else remain) = s at h hs
      rcases hR : rd.Read s.toNat with ⟨b, err, rd2⟩
      rw [hR] at h
      cases err with
      | some err => simp at h
      | none =>
        dsimp only at h ⊢
        have hb2 := Read_ok_length_le rd s.toNat b rd2 hR
        have := ih _ _ _ _ _ (by omega) h
        cases ht : readValueTrace fuel (remain - (b.length : Int)) rd2 with
        | nil =>
          rw [ht] at this
          simpa using this
        | cons x xs =>
          rw [ht] at this
          simpa [List.getLast?_cons_cons] using this
    · rw [if_neg hpos] at h ⊢
      simp
      omega

/-- C17. For every declared length `size` and every stream, whatever the
single calls of `Read` do (each fails or delivers at least one byte), the
value loop of `parseAttribute` comes to an end within `size` iterations; at
every successful iteration `remain` is positive, the request `s` is positive
and at most `min(remain, bufio.MaxScanTokenSize)`, the count `n` is between 1
and `s`, and `remain - n` is not negative and smaller than `remain`; and when
the loop ends normally `remain` has reached 0. -/
theorem readValue_terminates (size : Nat) (rd : Reader) :
    readValue size (size : Int) [] rd ≠ Result.timeout
    ∧ (∀ it ∈ readValueTrace size (size : Int) rd,
        0 < it.remain ∧ 0 < it.request ∧ it.request ≤ min it.remain MaxScanTokenSize
        ∧ 1 ≤ it.got ∧ (it.got : Int) ≤ it.request
        ∧ it.remainAfter = it.remain - it.got
        ∧ 0 ≤ it.remainAfter ∧ it.remainAfter < it.remain)
    ∧ (readValueTrace size (size : Int) rd).length ≤ size
    ∧ (∀ v rd1, readValue size (size : Int) [] rd = Result.ret v rd1 →
        (((readValueTrace size (size : Int) rd).getLast?).map
          (fun it => it.remainAfter)).getD (size : Int) = 0) := by
  obtain ⟨h1, h2⟩ := readValueTrace_spec size (size : Int) rd (by omega) (le_refl _)
  refine ⟨readValue_ne_timeout size _ _ _ (le_refl _), h1, by exact_mod_cast h2, ?_⟩
  intro v rd1 h
  exact readValue_final_remain size _ _ _ _ _ (by omega) h

/-! ## Fixed-width fields and short reads (C15) -/

/-- C15, the code at failing inputs. The length field `02 01 00 00` encodes
258; the `Read` of it delivers one byte, `parseAttribute` discards the count,
decodes the length 2 from the buffer `02 00 00 00`, has consumed one byte for
the field and takes the rest of the field for the value. In `Decode` the
offset `64 01 00 00 00 00 00 00` is 356; the `Read` of it delivers one byte,
the entry of the table is 100 and one byte has been consumed. -/
theorem fixed_width_short_read :
    Uint32 [2, 1, 0, 0] = 258
    ∧ parseAttribute ⟨[97, 0, 116, 0, 2, 1, 0, 0, 9, 9], [0]⟩
      = Result.ret (some ⟨[97], [116], 2, [1, 0]⟩) ⟨[0, 9, 9], []⟩
    ∧ goInt64 (Uint64 [100, 1, 0, 0, 0, 0, 0, 0]) = 356
    ∧ Decode ⟨exrStream [0, 0, 0, 0] [0, 0, 0, 0, 0, 0, 0, 0, 0, 0, 0, 0, 0, 0, 0, 0]
          [100, 1, 0, 0, 0, 0, 0, 0], [3, 3, 3, 15, 0]⟩
      = Result.ret ⟨0, Topology.ScanlineSinglePart.flags, false,
          [⟨dataWindowName, box2iName, 16, [0, 0, 0, 0, 0, 0, 0, 0, 0, 0, 0, 0, 0, 0, 0, 0]⟩],
          0, 0, 0, 0, [100]⟩ ⟨[1, 0, 0, 0, 0, 0, 0], []⟩ := by
  decide

/-! ## A data window that is too short (C16) -/

/-- With an entry for `dataWindow` whose value has fewer than sixteen bytes,
the rest of `Decode` panics in one of the four slice expressions. -/
theorem decodeBody_short_window (version : Int) (ty : ImageType) (long : Bool)
    (attrs : AttrMap) (rd : Reader) (dataWindow : Attribute)
    (hlook : attrs.lookup dataWindowName = some dataWindow)
    (hshort : dataWindow.value.length < 16) :
    decodeBody version ty long attrs rd = Result.panic PanicKind.sliceBounds rd := by
  unfold decodeBody
  rw [hlook]
  have h3 : slice dataWindow.value 12 16 = none := by
    unfold slice
    rw [if_neg (by omega)]
  simp only [h3]
  split <;> first | rfl | simp_all

/-- C16, the code at a failing input. The header holds a `dataWindow` whose
value has four bytes; `Decode` slices it at `[4:8]` without a test of its
length and panics, where an error was to be returned. -/
theorem Decode_short_dataWindow :
    Decode ⟨exrStream [0, 0, 0, 0] [1, 0, 0, 0] [100, 0, 0, 0, 0, 0, 0, 0], []⟩
      = Result.panic PanicKind.sliceBounds ⟨[100, 0, 0, 0, 0, 0, 0, 0], []⟩ := by
  decide

/-! ## A line count that is not positive (C19) -/

/-- C19, the code at a failing input. With `yMin = 1` and `yMax = 0` the line
count is 0 and `Decode` returns an empty table with the stream untouched; with
`yMin = 5` and `yMax = 0` the line count is -4 and `Decode` panics in
`make([]int64, 0, lineCount)`, where an empty table and no error were
claimed. -/
theorem Decode_negative_lineCount :
    Decode ⟨exrStream [0, 0, 0, 0] [0, 0, 0, 0, 1, 0, 0, 0, 0, 0, 0, 0, 0, 0, 0, 0]
          [100, 0, 0, 0, 0, 0, 0, 0], []⟩
      = Result.ret ⟨0, Topology.ScanlineSinglePart.flags, false,
          [⟨dataWindowName, box2iName, 16, [0, 0, 0, 0, 1, 0, 0, 0, 0, 0, 0, 0, 0, 0, 0, 0]⟩],
          0, 1, 0, 0, []⟩ ⟨[100, 0, 0, 0, 0, 0, 0, 0], []⟩
    ∧ Decode ⟨exrStream [0, 0, 0, 0] [0, 0, 0, 0, 5, 0, 0, 0, 0, 0, 0, 0, 0, 0, 0, 0]
          [100, 0, 0, 0, 0, 0, 0, 0], []⟩
      = Result.panic PanicKind.makeNegativeCap ⟨[100, 0, 0, 0, 0, 0, 0, 0], []⟩ := by
  decide

/-! ## The error for a name that is too long (C18) -/

theorem parseAttribute_long_name (name tail : List Byte) (s : List Nat)
    (hnz : (0 : Byte) ∉ name) (hlong : 255 < name.length) :
    parseAttribute ⟨name ++ 0 :: tail, s⟩ = Result.fail GoError.nameTooLong ⟨tail, s⟩ := by
  unfold parseAttribute
  rw [ReadBytes_append 0 name _ s hnz]
  simp only [List.dropLast_concat]
  rw [if_neg (by omega), if_pos hlong]

theorem zero_not_mem_replicate (n : Nat) : (0 : Byte) ∉ List.replicate n (97 : Byte) := by
  intro h
  have h1 := List.eq_of_mem_replicate h
  revert h1
  decide

theorem lt_length_replicate (n : Nat) (h : 255 < n) :
    255 < (List.replicate n (97 : Byte)).length := by
  rw [List.length_replicate]
  exact h

/-- C18, as the code has it. For every attribute name longer than 255 bytes
`parseAttribute` returns one and the same error, made by
`errors.New("attribute name too long.")`: its text is fixed and holds neither
the name nor the length of the name. -/
theorem parseAttribute_long_name_error (name tail : List Byte) (s : List Nat)
    (hnz : (0 : Byte) ∉ name) (hlong : 255 < name.length) :
    parseAttribute ⟨name ++ 0 :: tail, s⟩ = Result.fail GoError.nameTooLong ⟨tail, s⟩
    ∧ GoError.Error GoError.nameTooLong = "attribute name too long." :=
  ⟨parseAttribute_long_name name tail s hnz hlong, rfl⟩

/-- A name of 256 bytes. -/
theorem parseAttribute_long_name_error_witness :
    parseAttribute ⟨List.replicate 256 97 ++ 0 :: [116, 0], []⟩
        = Result.fail GoError.nameTooLong ⟨[116, 0], []⟩
    ∧ GoError.Error GoError.nameTooLong = "attribute name too long." :=
  parseAttribute_long_name_error (List.replicate 256 97) [116, 0] []
    (zero_not_mem_replicate 256) (lt_length_replicate 256 (by norm_num))

/-- C18 fails as stated. Names of 256 and of 257 bytes get the same error, so
no reading of the error gives the length of the name. -/
theorem nameTooLong_reports_no_length :
    parseAttribute ⟨List.replicate 256 97 ++ 0 :: [], []⟩
        = Result.fail GoError.nameTooLong ⟨[], []⟩
    ∧ parseAttribute ⟨List.replicate 257 97 ++ 0 :: [], []⟩
        = Result.fail GoError.nameTooLong ⟨[], []⟩
    ∧ ¬ ∃ report : GoError → Nat, ∀ name : List Byte, (0 : Byte) ∉ name → 255 < name.length →
        ∀ e rd, parseAttribute ⟨name ++ 0 :: [], []⟩ = Result.fail e rd →
          report e = name.length := by
  have h256 := parseAttribute_long_name (List.replicate 256 97) [] []
    (zero_not_mem_replicate 256) (lt_length_replicate 256 (by norm_num))
  have h257 := parseAttribute_long_name (List.replicate 257 97) [] []
    (zero_not_mem_replicate 257) (lt_length_replicate 257 (by norm_num))
  refine ⟨h256, h257, ?_⟩
  rintro ⟨report, hr⟩
  have e1 := hr (List.replicate 256 97) (zero_not_mem_replicate 256)
    (lt_length_replicate 256 (by norm_num)) _ _ h256
  have e2 := hr (List.replicate 257 97) (zero_not_mem_replicate 257)
    (lt_length_replicate 257 (by norm_num)) _ _ h257
  rw [e1, List.length_replicate, List.length_replicate] at e2
  omega

/-! ## The whole of `Decode` with every read satisfied in full (C11) -/

theorem Read_full (pre rest : List Byte) (hpre : pre ≠ []) :
    Reader.Read ⟨pre ++ rest, []⟩ pre.length = (pre, none, ⟨rest, []⟩) := by
  have hlen : 0 < pre.length := List.length_pos.mpr hpre
  rw [Read_of_ne_nil _ _ hlen (by simp [hpre])]
  simp [Reader.readCount]

theorem fillBuf_of_length (k : Nat) (got : List Byte) (h : got.length = k) :
    fillBuf k got = got := by
  simp [fillBuf, h]

theorem toNat_ofNat_mod_div (x d : Nat) : (UInt8.ofNat (x / d % 256)).toNat = x / d % 256 :=
  toNat_ofNat_mod (x / d)

theorem Uint32_putUint32 (x : Nat) (hx : x < 2 ^ 32) : Uint32 (putUint32 x) = x := by
  unfold Uint32
  rw [List.take_of_length_le (by simp [putUint32])]
  exact leValue_putUint32 x hx

theorem Uint64_putUint64 (x : Nat) (hx : x < 2 ^ 64) : Uint64 (putUint64 x) = x := by
  unfold Uint64
  rw [List.take_of_length_le (by simp [putUint64])]
  simp only [putUint64, leValue, toNat_ofNat_mod, toNat_ofNat_mod_div]
  omega

theorem goInt64_putInt64 (o : Int) (h1 : -2 ^ 63 ≤ o) (h2 : o < 2 ^ 63) :
    goInt64 (Uint64 (putInt64 o)) = o := by
  unfold putInt64
  have hm : 0 ≤ o % 2 ^ 64 := Int.emod_nonneg _ (by norm_num)
  have hm2 : o % 2 ^ 64 < 2 ^ 64 := Int.emod_lt_of_pos _ (by norm_num)
  have hlt : (o % 2 ^ 64).toNat < 2 ^ 64 := by omega
  rw [Uint64_putUint64 _ hlt]
  unfold goInt64 toSigned
  rw [Nat.mod_eq_of_lt hlt]
  split
  · rename_i h
    have : ((o % 2 ^ 64).toNat : Int) = o % 2 ^ 64 := Int.toNat_of_nonneg hm
    rw [this]
    have h' : (o % 2 ^ 64).toNat < 2 ^ 63 := by simpa using h
    omega
  · rename_i h
    have : ((o % 2 ^ 64).toNat : Int) = o % 2 ^ 64 := Int.toNat_of_nonneg hm
    rw [this]
    have h' : ¬ (o % 2 ^ 64).toNat < 2 ^ 63 := by simpa using h
    omega

theorem putInt64_length (o : Int) : (putInt64 o).length = 8 := rfl

/-- With every read satisfied in full, the offset loop reads back an encoded
offset table and leaves the stream right after it. -/
theorem offsetLoop_encodeOffsets (offsets : List Int) :
    ∀ (acc : List Int) (rest : List Byte), (∀ o ∈ offsets, -2 ^ 63 ≤ o ∧ o < 2 ^ 63) →
    offsetLoop offsets.length acc ⟨encodeOffsets offsets ++ rest, []⟩
      = Result.ret (acc ++ offsets) ⟨rest, []⟩ := by
  induction offsets with
  | nil => intro acc rest _; simp [offsetLoop, encodeOffsets]
  | cons o os ih =>
    intro acc rest h
    have ho := h o (by simp)
    have hos : ∀ x ∈ os, -2 ^ 63 ≤ x ∧ x < 2 ^ 63 := fun x hx => h x (by simp [hx])
    have hR : Reader.Read ⟨encodeOffsets (o :: os) ++ rest, []⟩ 8
        = (putInt64 o, none, ⟨encodeOffsets os ++ rest, []⟩) := by
      have := Read_full (putInt64 o) (encodeOffsets os ++ rest) (by simp [putInt64, putUint64])
      rw [putInt64_length] at this
      simpa [encodeOffsets, List.append_assoc] using this
    rw [List.length_cons]
    unfold offsetLoop
    rw [hR]
    dsimp only
    rw [fillBuf_of_length 8 _ (putInt64_length o), goInt64_putInt64 o ho.1 ho.2, ih _ _ hos]
    simp

theorem encodeHeader_length (records : List (List Byte × List Byte × List Byte)) :
    records.length < (encodeHeader records).length := by
  induction records with
  | nil => simp [encodeHeader]
  | cons r rs ih =>
    obtain ⟨n, t, v⟩ := r
    simp only [encodeHeader, encodeAttribute, List.length_cons, List.length_append]
    omega

/-- With every read satisfied in full, the header loop of `Decode` puts the
records of an encoded header into the map, one after the other, and leaves
the stream right after the terminator. -/
theorem parseHeader_encodeHeader (records : List (List Byte × List Byte × List Byte))
    (hwf : ∀ r ∈ records, wellFormedRecord r) (rest : List Byte) :
    parseHeader ⟨encodeHeader records ++ rest, []⟩
      = Result.ret ((records.map recordAttribute).foldl AttrMap.insert []) ⟨rest, []⟩ := by
  unfold parseHeader
  apply headerLoop_of_parseRecords
  apply parseRecords_encodeHeader records hwf rest
  have := encodeHeader_length records
  simp only [List.length_append]
  omega

/-- With every read satisfied in full, a stream that begins with the magic
number and four bytes of version passes the first test of `Decode`; what
`Decode` does then is decided by the header loop and the rest. -/
theorem Decode_of_parseHeader (v0 v1 v2 v3 : Byte) (rest : List Byte) (attrs : AttrMap)
    (rd : Reader) (h : parseHeader ⟨rest, []⟩ = Result.ret attrs rd) :
    Decode ⟨[0x76, 0x2F, 0x31, 0x01] ++ ([v0, v1, v2, v3] ++ rest), []⟩
      = decodeBody (v0.toNat : Int) (imageType (goInt (Uint32 [v0, v1, v2, v3])))
          (longAttrName (goInt (Uint32 [v0, v1, v2, v3]))) attrs rd := by
  have hR1 := Read_full [0x76, 0x2F, 0x31, 0x01] ([v0, v1, v2, v3] ++ rest) (by simp)
  have hR2 := Read_full [v0, v1, v2, v3] rest (by simp)
  simp only [List.length_cons, List.length_nil] at hR1 hR2
  unfold Decode
  rw [hR1]
  dsimp only
  have hm : goInt (Uint32 (fillBuf 4 [0x76, 0x2F, 0x31, 0x01])) = MagicNumber := by decide
  rw [if_neg (by rw [hm]; simp), hR2]
  dsimp only
  rw [fillBuf_of_length 4 [v0, v1, v2, v3] rfl, h]
  rfl

theorem putInt32_natCast (x : Nat) (h : x < 2 ^ 32) : putInt32 (x : Int) = putUint32 x := by
  unfold putInt32
  have : ((x : Int) % 2 ^ 32).toNat = x := by omega
  rw [this]

theorem slice_putUint32 (a b c d : Nat) :
    slice (putUint32 a ++ (putUint32 b ++ (putUint32 c ++ putUint32 d))) 0 4
        = some (putUint32 a)
    ∧ slice (putUint32 a ++ (putUint32 b ++ (putUint32 c ++ putUint32 d))) 4 8
        = some (putUint32 b)
    ∧ slice (putUint32 a ++ (putUint32 b ++ (putUint32 c ++ putUint32 d))) 8 12
        = some (putUint32 c)
    ∧ slice (putUint32 a ++ (putUint32 b ++ (putUint32 c ++ putUint32 d))) 12 16
        = some (putUint32 d) := by
  simp [slice, putUint32]

/-- The rest of `Decode` on a map whose entry for `dataWindow` holds four
unsigned words with `yMin ≤ yMax`, with every read satisfied in full and the
encoded offsets in the stream. -/
theorem decodeBody_encodeOffsets (version : Int) (ty : ImageType) (long : Bool)
    (attrs : AttrMap) (dataWindow : Attribute) (a b c d : Nat) (offsets : List Int)
    (rest : List Byte) (hlook : attrs.lookup dataWindowName = some dataWindow)
    (hval : dataWindow.value = putUint32 a ++ (putUint32 b ++ (putUint32 c ++ putUint32 d)))
    (ha : a < 2 ^ 32) (hb : b < 2 ^ 32) (hc : c < 2 ^ 32) (hd : d < 2 ^ 32)
    (hcount : offsets.length + b = d + 1)
    (hrange : ∀ o ∈ offsets, -2 ^ 63 ≤ o ∧ o < 2 ^ 63) :
    decodeBody version ty long attrs ⟨encodeOffsets offsets ++ rest, []⟩
      = Result.ret ⟨version, ty, long, attrs, a, b, c, d, offsets⟩ ⟨rest, []⟩ := by
  obtain ⟨s0, s1, s2, s3⟩ := slice_putUint32 a b c d
  unfold decodeBody
  rw [hlook]
  dsimp only
  rw [hval, s0, s1, s2, s3]
  dsimp only
  rw [Uint32_putUint32 a ha, Uint32_putUint32 b hb, Uint32_putUint32 c hc, Uint32_putUint32 d hd,
    goInt_of_lt (by omega), goInt_of_lt (by omega), goInt_of_lt (by omega),
    goInt_of_lt (by omega)]
  have hl : ((d : Int) - (b : Int) + 1) = (offsets.length : Int) := by omega
  rw [hl, if_neg (by omega), Int.toNat_ofNat, offsetLoop_encodeOffsets offsets [] rest hrange]
  simp

/-- C11. With every read satisfied in full: for every non-empty list of `n`
signed 64-bit offsets (`n` at most 2^31, so that `n - 1` is a signed 32-bit
number), the stream made of the magic number 20000630, the version word 0,
the one attribute `dataWindow` of type `box2i` whose sixteen bytes encode
`(0, 0, 0, n - 1)`, the empty name and the offsets as eight little-endian
bytes each is decoded to the single-part scan-line image type, a map with
exactly the one entry, the window `(0, 0, 0, n - 1)` and an offset table equal
to the list, in its order; the whole stream has been read. -/
theorem Decode_end_to_end (offsets : List Int) (hn : offsets ≠ [])
    (hmax : offsets.length ≤ 2 ^ 31) (hrange : ∀ o ∈ offsets, -2 ^ 63 ≤ o ∧ o < 2 ^ 63) :
    Decode ⟨exrStream [0, 0, 0, 0] (encodeBox2i 0 0 0 ((offsets.length : Int) - 1))
        (encodeOffsets offsets), []⟩
      = Result.ret ⟨0, Topology.ScanlineSinglePart.flags, false,
          [⟨dataWindowName, box2iName, 16,
            encodeBox2i 0 0 0 ((offsets.length : Int) - 1)⟩],
          0, 0, 0, (offsets.length : Int) - 1, offsets⟩ ⟨[], []⟩ := by
  have hpos : 0 < offsets.length := List.length_pos.mpr hn
  have hcast : ((offsets.length : Int) - 1) = ((offsets.length - 1 : Nat) : Int) := by omega
  have hbox : encodeBox2i 0 0 0 ((offsets.length : Int) - 1)
      = putUint32 0 ++ (putUint32 0 ++ (putUint32 0 ++ putUint32 (offsets.length - 1))) := by
    unfold encodeBox2i
    rw [hcast, putInt32_natCast _ (by omega)]
    rfl
  have hwf : ∀ r ∈ [(dataWindowName, box2iName, encodeBox2i 0 0 0 ((offsets.length : Int) - 1))],
      wellFormedRecord r := by
    intro r hr
    rw [List.mem_singleton] at hr
    subst hr
    have w1 : dataWindowName ≠ [] := by decide
    have w2 : dataWindowName.length ≤ 255 := by decide
    have w3 : (0 : Byte) ∉ dataWindowName := by decide
    have w4 : (0 : Byte) ∉ box2iName := by decide
    refine ⟨w1, w2, w3, w4, ?_⟩
    show (encodeBox2i 0 0 0 ((offsets.length : Int) - 1)).length < 2 ^ 32
    rw [hbox]
    simp [putUint32]
  have hH := parseHeader_encodeHeader _ hwf (encodeOffsets offsets)
  have hD := Decode_of_parseHeader 0 0 0 0 _ _ _ hH
  have hstream : exrStream [0, 0, 0, 0] (encodeBox2i 0 0 0 ((offsets.length : Int) - 1))
        (encodeOffsets offsets)
      = [0x76, 0x2F, 0x31, 0x01] ++ ([0, 0, 0, 0]
          ++ (encodeHeader [(dataWindowName, box2iName,
                encodeBox2i 0 0 0 ((offsets.length : Int) - 1))] ++ encodeOffsets offsets)) := by
    simp [exrStream, List.append_assoc]
  rw [hstream, hD]
  have hlen16 : (encodeBox2i 0 0 0 ((offsets.length : Int) - 1)).length = 16 := by
    rw [hbox]; rfl
  have hattrs : (List.map recordAttribute
        [(dataWindowName, box2iName, encodeBox2i 0 0 0 ((offsets.length : Int) - 1))]).foldl
        AttrMap.insert []
      = [⟨dataWindowName, box2iName, 16, encodeBox2i 0 0 0 ((offsets.length : Int) - 1)⟩] := by
    simp [recordAttribute, AttrMap.insert, hlen16]
  rw [hattrs]
  have hbody := decodeBody_encodeOffsets ((0 : Byte).toNat : Int)
    (imageType (goInt (Uint32 [0, 0, 0, 0]))) (longAttrName (goInt (Uint32 [0, 0, 0, 0])))
    [⟨dataWindowName, box2iName, 16, encodeBox2i 0 0 0 ((offsets.length : Int) - 1)⟩]
    ⟨dataWindowName, box2iName, 16, encodeBox2i 0 0 0 ((offsets.length : Int) - 1)⟩
    0 0 0 (offsets.length - 1) offsets [] (by simp [AttrMap.lookup]) hbox
    (by norm_num) (by norm_num) (by norm_num) (by omega) (by omega) hrange
  rw [List.append_nil] at hbody
  rw [hbody]
  have h1 : imageType (goInt (Uint32 [0, 0, 0, 0])) = Topology.ScanlineSinglePart.flags := by
    decide
  have h2 : longAttrName (goInt (Uint32 [0, 0, 0, 0])) = false := by decide
  rw [h1, h2, hcast]
  simp

/-- The scenario of the specification: four lines and the offsets 100, 200,
300, 400. -/
theorem Decode_end_to_end_witness :
    Decode ⟨exrStream [0, 0, 0, 0]
        (encodeBox2i 0 0 0 ((([100, 200, 300, 400] : List Int).length : Int) - 1))
        (encodeOffsets [100, 200, 300, 400]), []⟩
      = Result.ret ⟨0, Topology.ScanlineSinglePart.flags, false,
          [⟨dataWindowName, box2iName, 16,
            encodeBox2i 0 0 0 ((([100, 200, 300, 400] : List Int).length : Int) - 1)⟩],
          0, 0, 0, (([100, 200, 300, 400] : List Int).length : Int) - 1,
          [100, 200, 300, 400]⟩ ⟨[], []⟩ :=
  Decode_end_to_end [100, 200, 300, 400] (by decide) (by decide) (by decide)

/-- With every read satisfied in full, a file whose header is empty makes
`Decode` exit for the missing data window, with the stream right after the
terminator of the header. -/
theorem Decode_empty_header (v0 v1 v2 v3 : Byte) (rest : List Byte) :
    Decode ⟨[0x76, 0x2F, 0x31, 0x01] ++ ([v0, v1, v2, v3] ++ 0 :: rest), []⟩
      = Result.exit ExitReason.noDataWindow ⟨rest, []⟩ := by
  have hH : parseHeader ⟨0 :: rest, []⟩ = Result.ret [] ⟨rest, []⟩ := by
    simp [parseHeader, headerLoop, parseAttribute_end_of_header_aux]
  rw [Decode_of_parseHeader v0 v1 v2 v3 _ _ _ hH]
  rfl

end Exr
